import Mathlib

set_option synthInstance.maxSize 512

/-!
# Verification of the Correction_DB schema corrector

Shallow embedding of `src/corrector.py` (class `SchemaCorrector` and the
`Operation` dataclass).  Database introspection (SQLAlchemy `Inspector`) is an
external collaborator: a run of the program observes, per database, the table
names, and per table the columns, foreign keys and indexes.  We therefore model
each database by the snapshot the inspector returns.  The target-side
`try/except` blocks of the source degrade an introspection failure to an empty
result; in the snapshot model a failed introspection call is represented by the
degraded (empty) list it produces.

Python truthiness of optional strings (`if rt:`, `a or b`) is modelled by
`truthyStr` / `orStr`:  `None` and the empty string are falsy.
-/

/-- Mirrors the frozen dataclass `Operation` of `corrector.py`:
one planned or reported schema change. -/
structure Operation where
  kind : String
  sql : String
  comment : String
deriving DecidableEq, Repr

/-- One foreign-key record as returned by `Inspector.get_foreign_keys`
(a Python dict with optional entries; the `options` sub-dict is flattened
into the `ondelete` / `onupdate` fields). -/
structure FKInfo where
  name : Option String
  constrained_columns : List String
  referred_schema : Option String
  referred_table : Option String
  referred_columns : List String
  ondelete : Option String
  onupdate : Option String
deriving DecidableEq, Repr

/-- One column as observed through `_get_columns`: the name, the
dialect-rendered SQL type string, and the nullability flag.  The `default`
entry of the Python meta dict is stored but never read by the program, so it
is omitted here. -/
structure ColInfo where
  name : String
  type_sql : String
  nullable : Bool
deriving DecidableEq, Repr

/-- One index as observed through `Inspector.get_indexes` or through table
reflection (`Table(...).indexes`). -/
structure IndexInfo where
  name : Option String
  column_names : List String
  unique : Bool
deriving DecidableEq, Repr

/-- Snapshot of one database as the introspection collaborator reports it:
dialect name of the engine, table names, and per-table columns, foreign keys
and indexes.  `reflected_indexes` is what `Table(..., autoload_with=...)`
reflection exposes via `.indexes`; `indexes` is `Inspector.get_indexes`. -/
structure DBState where
  dialect : String
  tables : List String
  columns : String → List ColInfo
  fks : String → List FKInfo
  indexes : String → List IndexInfo
  reflected_indexes : String → List IndexInfo

/-- The corrector configuration: the two snapshots and the constructor
arguments that the planning/applying code reads. -/
structure SchemaCorrector where
  source : DBState
  target : DBState
  schema : Option String
  lock_timeout_seconds : Int
  statement_timeout_seconds : Int

/-- Python truthiness of an optional string: `None` and `''` are falsy. -/
def truthyStr : Option String → Bool
  | none => false
  | some s => s ≠ ""

/-- Python `a or b` on optional strings (returns `b` whenever `a` is falsy). -/
def orStr (a b : Option String) : Option String :=
  if truthyStr a then a else b

/-- The distinct elements of a list (Python `set(...)` semantics: only
membership and cardinality of the result are ever used, so the retained
occurrence is immaterial; this keeps the last one, structurally). -/
def dedupLast {A : Type} [DecidableEq A] : List A → List A
  | [] => []
  | x :: xs => if x ∈ xs then dedupLast xs else x :: dedupLast xs

/-- Python `dict.get(k)` on an ordered association list. -/
def dictLookup (l : List (String × ColInfo)) (k : String) : Option ColInfo :=
  match l with
  | [] => none
  | p :: rest => if p.1 = k then some p.2 else dictLookup rest k

/-- Code-point lexicographic comparison of character sequences (the order
Python `sorted` uses on `str`). -/
def charListLe : List Char → List Char → Bool
  | [], _ => true
  | _ :: _, [] => false
  | a :: as, b :: bs =>
    if a.toNat < b.toNat then true
    else if b.toNat < a.toNat then false
    else charListLe as bs

/-- Python string comparison `a <= b` (code-point lexicographic). -/
def strLe (a b : String) : Bool :=
  charListLe a.data b.data

/-- Insert a string into a sorted list (stable insertion step). -/
def insertSorted (x : String) : List String → List String
  | [] => [x]
  | y :: ys => if strLe x y then x :: y :: ys else y :: insertSorted x ys

/-- Python `sorted` on a list of strings (insertion sort). -/
def sortStrings (l : List String) : List String :=
  l.foldr insertSorted []

/-- Python `sorted(setA - setB)`: the distinct elements of `a` that are not
in `b`, in sorted order. -/
def sortedSetDiff (a b : List String) : List String :=
  sortStrings (dedupLast (a.filter (fun t => t ∉ b)))

/-- Python `sorted(setA & setB)`. -/
def sortedSetInter (a b : List String) : List String :=
  sortStrings (dedupLast (a.filter (fun t => t ∈ b)))

/-- Python `s.startswith(p)`, modelled on the character sequence. -/
def strStartsWith (s p : String) : Bool :=
  p.data.isPrefixOf s.data

/-- Python `s.removeprefix(p)`, modelled on the character sequence. -/
def removeprefixStr (s p : String) : String :=
  if strStartsWith s p then ⟨s.data.drop p.data.length⟩ else s

namespace SchemaCorrector

/-- `_is_sqlite`: the target dialect is SQLite. -/
def is_sqlite (c : SchemaCorrector) : Bool :=
  c.target.dialect = "sqlite"

/-- `_q`: identifier quoting.  The real quoting is delegated to the dialect
identifier preparer; modelled from the spec (§4.4 identifier quoting per
target dialect rules) as double quoting. -/
def q (c : SchemaCorrector) (name : String) : String :=
  "\"" ++ name ++ "\""

/-- `_qt`: quoted table name, schema-qualified when a schema is configured
(Python truthiness on `self.schema`). -/
def qt (c : SchemaCorrector) (table_name : String) : String :=
  if truthyStr c.schema then
    c.q ((c.schema).getD "") ++ "." ++ c.q table_name
  else c.q table_name

end SchemaCorrector

/-- Python dict insertion `d[k] = v`: an existing key keeps its position and
gets the new value, a new key is appended. -/
def dictInsert (l : List (String × ColInfo)) (k : String) (v : ColInfo) :
    List (String × ColInfo) :=
  if l.any (fun p => p.1 = k) then
    l.map (fun p => if p.1 = k then (k, v) else p)
  else l ++ [(k, v)]

/-- `_get_columns`: the ordered name-to-meta dict built from the column
list of a snapshot. -/
def colDict (cols : List ColInfo) : List (String × ColInfo) :=
  cols.foldl (fun acc c => dictInsert acc c.name c) []

namespace SchemaCorrector

/-- The FK comparison signature of `_fk_signature`: constrained columns,
referred schema (with the `or self.schema` fallback), referred table,
referred columns and the ON DELETE / ON UPDATE actions. -/
def fk_signature (c : SchemaCorrector) (fk : FKInfo) :
    List String × Option String × Option String × List String ×
      Option String × Option String :=
  (fk.constrained_columns, orStr fk.referred_schema c.schema,
    fk.referred_table, fk.referred_columns, fk.ondelete, fk.onupdate)

/-- `_make_fk_name`: deterministic FK name, truncated to 60 characters. -/
def make_fk_name (c : SchemaCorrector) (table_name : String) (fk : FKInfo) :
    String :=
  let cols := "_".intercalate fk.constrained_columns
  let ref := match orStr fk.referred_table (some "ref") with
    | some r => r
    | none => "ref"
  ("fk_" ++ table_name ++ "_" ++ cols ++ "_" ++ ref).take 60

end SchemaCorrector

/-- `set.add` on the dependency sets of `_sort_missing_tables_by_fk`:
append the element unless already present (so the list stays duplicate
free, mirroring Python set membership semantics). -/
def addDep (s : List String) (x : String) : List String :=
  if x ∈ s then s else s ++ [x]

/-- The initial dependency sets of `_sort_missing_tables_by_fk`: for a
table `t`, the referred tables of its source foreign keys that are truthy
and lie in the missing set. -/
def restrictedDeps (c : SchemaCorrector) (missing : List String)
    (t : String) : List String :=
  (c.source.fks t).foldl
    (fun acc fk =>
      match fk.referred_table with
      | some rt => if rt ≠ "" ∧ rt ∈ missing then addDep acc rt else acc
      | none => acc)
    []

/-- `deps[t].remove(n)` as a pointwise update of the dependency map. -/
def eraseDep (deps : String → List String) (t n : String) :
    String → List String :=
  fun u => if u = t then (deps t).erase n else deps u

/-- The inner `for t in missing` loop of the Kahn sort: after `n` was
appended to `out`, remove `n` from every dependency set and move every
table whose set became empty onto the ready stack.  The ready stack is
kept in reversed order (`push = cons`, matching `list.append` followed by
`list.pop()` in the source, which is LIFO). -/
def processDeps (n : String) : List String → (String → List String) →
    List String → List String → ((String → List String) × List String)
  | [], deps, ready, _ => (deps, ready)
  | t :: ts, deps, ready, out =>
    if n ∈ deps t then
      if (deps t).erase n = [] ∧ t ∉ out ∧ t ∉ ready then
        processDeps n ts (eraseDep deps t n) (t :: ready) out
      else
        processDeps n ts (eraseDep deps t n) ready out
    else
      processDeps n ts deps ready out

/-- The `while ready:` loop of `_sort_missing_tables_by_fk`.  Fuel-indexed
(the caller passes enough fuel for the loop to run to completion; see
`kahnLoop_ready_nil`).  Returns the final `out`, dependency sets and ready
stack. -/
def kahnLoop (missing : List String) :
    Nat → (String → List String) → List String → List String →
      (List String × (String → List String) × List String)
  | 0, deps, ready, out => (out, deps, ready)
  | fuel + 1, deps, ready, out =>
    match ready with
    | [] => (out, deps, [])
    | n :: rest =>
      let out1 := out ++ [n]
      let step := processDeps n missing deps rest out1
      kahnLoop missing fuel step.1 step.2 out1

/-- Fuel bound for `kahnLoop`: strictly decreases at every loop iteration. -/
def kahnMeasure (missing ready out : List String) : Nat :=
  (missing.toFinset \ (out.toFinset ∪ ready.toFinset)).card + ready.length

/-- `_sort_missing_tables_by_fk`: Kahn topological sort of the missing
tables along their FK dependencies, falling back to the original input
order when the sort could not consume every table (cycle).  The returned
Bool records whether the cycle warning was logged. -/
def SchemaCorrector.sort_missing_tables_by_fk (c : SchemaCorrector)
    (missing : List String) : List String × Bool :=
  let deps0 := restrictedDeps c missing
  let ready0 := (missing.filter (fun t => deps0 t = [])).reverse
  let r := kahnLoop missing (2 * missing.length + 1) deps0 ready0 []
  if r.1.length ≠ missing.length then (missing, true) else (r.1, false)

/-- The FK dependency edge of the orderer, restricted to the missing set:
`t` depends on (must be created after) `u`. -/
def fkEdge (c : SchemaCorrector) (missing : List String)
    (t u : String) : Prop :=
  t ∈ missing ∧ u ∈ restrictedDeps c missing t

/-- The restricted FK dependency graph contains a (directed) cycle. -/
def HasFkCycle (c : SchemaCorrector) (missing : List String) : Prop :=
  ∃ t, Relation.TransGen (fkEdge c missing) t t

/-- Loop invariant of the Kahn sort in `_sort_missing_tables_by_fk`,
relating the current dependency map, ready stack and output list. -/
structure KahnInv (c : SchemaCorrector) (missing : List String)
    (deps : String → List String) (ready out : List String) : Prop where
  depsNodup : ∀ v, (deps v).Nodup
  depsSub : ∀ v, deps v ⊆ restrictedDeps c missing v
  depsCover : ∀ t ∈ missing, ∀ u ∈ restrictedDeps c missing t,
    u ∈ deps t ∨ u ∈ out
  readyMem : ∀ t ∈ ready, t ∈ missing ∧ deps t = [] ∧ t ∉ out
  readyNodup : ready.Nodup
  outMem : ∀ t ∈ out, t ∈ missing
  outNodup : out.Nodup
  outClean : ∀ u ∈ out, ∀ t ∈ missing, u ∉ deps t
  emptyIn : ∀ t ∈ missing, deps t = [] → t ∈ out ∨ t ∈ ready
  topo : ∀ i (h : i < out.length),
    ∀ u ∈ restrictedDeps c missing (out.get ⟨i, h⟩), u ∈ out.take i

namespace SchemaCorrector

/-- Modelled from the spec: the DDL compilation collaborator (§6) renders a
column of a reflected table. -/
def colDDL (c : SchemaCorrector) (col : ColInfo) : String :=
  c.q col.name ++ " " ++ col.type_sql ++
    (if col.nullable then "" else " NOT NULL")

/-- Modelled from the spec: the DDL compilation collaborator (§6) renders an
inline FOREIGN KEY clause of a CREATE TABLE statement. -/
def fkInlineDDL (c : SchemaCorrector) (fk : FKInfo) : Option String :=
  match fk.referred_table with
  | none => none
  | some rt =>
    if fk.constrained_columns = [] ∨ fk.referred_columns = [] then none
    else some ("FOREIGN KEY (" ++
      ", ".intercalate (fk.constrained_columns.map c.q) ++ ") REFERENCES " ++
      c.q rt ++ " (" ++ ", ".intercalate (fk.referred_columns.map c.q) ++ ")")

/-- Modelled from the spec: `CreateTable(table,
include_foreign_key_constraints=...).compile(target)` — the external DDL
compiler renders the reflected table for the target dialect; passing `None`
includes every FK constraint inline, passing `frozenset()` excludes them
all.  `include_foreign_keys` is the flag `_plan_create_table` receives. -/
def createTableSQL (c : SchemaCorrector) (table_name : String)
    (include_foreign_keys : Bool) : String :=
  let cols := (c.source.columns table_name).map c.colDDL
  let fks := if include_foreign_keys then
      (c.source.fks table_name).filterMap c.fkInlineDDL
    else []
  "CREATE TABLE " ++ c.qt table_name ++ " (" ++
    ", ".intercalate (cols ++ fks) ++ ");"

/-- `_plan_create_table`: one create_table Operation whose DDL reflects the
source table, with FKs included or excluded per the flag. -/
def plan_create_table (c : SchemaCorrector) (table_name : String)
    (include_foreign_keys : Bool) : List Operation :=
  [⟨"create_table", createTableSQL c table_name include_foreign_keys,
    "Create table " ++ table_name⟩]

/-- `_plan_add_missing_columns`: ALTER TABLE ... ADD COLUMN for every source
column absent from the target. -/
def plan_add_missing_columns (c : SchemaCorrector) (table_name : String) :
    List Operation :=
  let src_cols := colDict (c.source.columns table_name)
  let tgt_cols := colDict (c.target.columns table_name)
  src_cols.filterMap (fun p =>
    if (dictLookup tgt_cols p.1).isSome then none
    else some ⟨"add_column",
      "ALTER TABLE " ++ c.qt table_name ++ " ADD COLUMN " ++ c.q p.1 ++
        " " ++ p.2.type_sql ++ ";",
      "Add column " ++ table_name ++ "." ++ p.1⟩)

/-- The truthy-named target indexes (`tgt_index_names` in
`_plan_add_missing_indexes`). -/
def tgtIndexNames (c : SchemaCorrector) (table_name : String) : List String :=
  (c.target.indexes table_name).filterMap (fun i =>
    match i.name with
    | some nm => if nm ≠ "" then some nm else none
    | none => none)

/-- Modelled from the spec: `CreateIndex(idx).compile(target)` — the external
DDL compiler renders a reflected index for the target dialect. -/
def createIndexSQL (c : SchemaCorrector) (table_name : String)
    (idx : IndexInfo) : String :=
  "CREATE " ++ (if idx.unique then "UNIQUE " else "") ++ "INDEX " ++
    c.q (idx.name.getD "") ++ " ON " ++ c.qt table_name ++ " (" ++
    ", ".intercalate (idx.column_names.map c.q) ++ ");"

/-- The hand-written CREATE INDEX statement of the introspection pass of
`_plan_add_missing_indexes`. -/
def handIndexSQL (c : SchemaCorrector) (table_name nm : String)
    (cols : List String) (unique : Bool) : String :=
  "CREATE " ++ (if unique then "UNIQUE " else "") ++ "INDEX " ++ c.q nm ++
    " ON " ++ c.qt table_name ++ " (" ++
    ", ".intercalate (cols.map c.q) ++ ");"

/-- The reflection pass of `_plan_add_missing_indexes`: one create_index
Operation per truthy-named reflected source index absent from the target. -/
def refIndexOps (c : SchemaCorrector) (table_name : String) :
    List Operation :=
  (c.source.reflected_indexes table_name).filterMap
    (fun idx =>
      match idx.name with
      | some nm =>
        if nm ≠ "" ∧ nm ∉ c.tgtIndexNames table_name then
          some ⟨"create_index", createIndexSQL c table_name idx,
            "Create index " ++ nm⟩
        else none
      | none => none)

/-- `planned_names` in `_plan_add_missing_indexes`: the names recovered
from the comments of the reflection-pass operations. -/
def plannedIndexNames (c : SchemaCorrector) (table_name : String) :
    List String :=
  ((refIndexOps c table_name).filter (fun op =>
      op.kind = "create_index" ∧
        strStartsWith op.comment "Create index ")).map
    (fun op => removeprefixStr op.comment "Create index ")

/-- The introspection pass of `_plan_add_missing_indexes`. -/
def inspIndexOps (c : SchemaCorrector) (table_name : String) :
    List Operation :=
  (c.source.indexes table_name).filterMap (fun info =>
    match info.name with
    | some nm =>
      if nm ≠ "" ∧ info.column_names ≠ [] ∧
          nm ∉ c.tgtIndexNames table_name ∧
          nm ∉ plannedIndexNames c table_name then
        some ⟨"create_index",
          handIndexSQL c table_name nm info.column_names info.unique,
          "Create index " ++ nm⟩
      else none
    | none => none)

/-- `_plan_add_missing_indexes`: create_index Operations for source indexes
absent from the target, first from table reflection, then from direct
introspection (skipping names already planned by the reflection pass). -/
def plan_add_missing_indexes (c : SchemaCorrector) (table_name : String) :
    List Operation :=
  refIndexOps c table_name ++ inspIndexOps c table_name

/-- `_build_fk_operation`: the ALTER TABLE ... ADD CONSTRAINT Operation for
one source FK, or `none` when the FK data is insufficient. -/
def build_fk_operation (c : SchemaCorrector) (table_name : String)
    (fk : FKInfo) : Option Operation :=
  if truthyStr fk.referred_table = false then none
  else
    let ref_table := fk.referred_table.getD ""
    let nm := match orStr fk.name (some (c.make_fk_name table_name fk)) with
      | some s => s
      | none => c.make_fk_name table_name fk
    let cols := fk.constrained_columns
    let ref_cols := fk.referred_columns
    let ref_schema := orStr fk.referred_schema c.schema
    if cols = [] ∨ ref_cols = [] then none
    else
      let cols_sql := ", ".intercalate (cols.map c.q)
      let ref_cols_sql := ", ".intercalate (ref_cols.map c.q)
      let ref_table_sql :=
        if truthyStr ref_schema then
          c.q (ref_schema.getD "") ++ "." ++ c.q ref_table
        else c.q ref_table
      let sql0 := "ALTER TABLE " ++ c.qt table_name ++ " ADD CONSTRAINT " ++
        c.q nm ++ " FOREIGN KEY (" ++ cols_sql ++ ") REFERENCES " ++
        ref_table_sql ++ " (" ++ ref_cols_sql ++ ")"
      let sql1 := sql0 ++
        (if truthyStr fk.ondelete then
          " ON DELETE " ++ fk.ondelete.getD "" else "")
      let sql2 := sql1 ++
        (if truthyStr fk.onupdate then
          " ON UPDATE " ++ fk.onupdate.getD "" else "")
      let sql3 := sql2 ++
        (if c.target.dialect = "postgresql" then " NOT VALID" else "") ++ ";"
      some ⟨"add_foreign_key", sql3,
        "Add foreign key " ++ table_name ++ "." ++ nm⟩

/-- `_plan_foreign_keys`: add_foreign_key Operations for the source FKs,
skipping (when a target FK list is given) signatures already present. -/
def plan_foreign_keys (c : SchemaCorrector) (table_name : String)
    (src_fks : List FKInfo) (tgt_fks : Option (List FKInfo)) :
    List Operation :=
  let tgt_sigs := (tgt_fks.getD []).map c.fk_signature
  src_fks.filterMap (fun fk =>
    if tgt_fks.isSome ∧ c.fk_signature fk ∈ tgt_sigs then none
    else c.build_fk_operation table_name fk)

/-- `_plan_add_foreign_keys_for_new_table`. -/
def plan_add_foreign_keys_for_new_table (c : SchemaCorrector)
    (table_name : String) : List Operation :=
  if c.is_sqlite then []
  else c.plan_foreign_keys table_name (c.source.fks table_name) none

/-- The set difference `src_sigs - tgt_sigs` of the SQLite branch of
`_plan_add_missing_foreign_keys`, as a duplicate-free list. -/
def missingFkSigs (c : SchemaCorrector) (table_name : String) :
    List (List String × Option String × Option String × List String ×
      Option String × Option String) :=
  (dedupLast ((c.source.fks table_name).map c.fk_signature)).filter
    (fun s => s ∉ (c.target.fks table_name).map c.fk_signature)

/-- The report comment of the SQLite branch of
`_plan_add_missing_foreign_keys`. -/
def fkReportComment (table_name : String) (missing_count : Nat) : String :=
  "RISKY: SQLite cannot add FK via ALTER TABLE: table=" ++ table_name ++
    ", missing=" ++ toString missing_count

/-- `_plan_add_missing_foreign_keys`: for SQLite, a single per-table report
counting the missing FK signatures (or nothing); otherwise ALTER-based
add_foreign_key Operations for the missing signatures. -/
def plan_add_missing_foreign_keys (c : SchemaCorrector)
    (table_name : String) : List Operation :=
  let src_fks := c.source.fks table_name
  let tgt_fks := c.target.fks table_name
  if c.is_sqlite then
    let missing := c.missingFkSigs table_name
    if missing.isEmpty then []
    else [⟨"report", "-- no-op", fkReportComment table_name missing.length⟩]
  else c.plan_foreign_keys table_name src_fks (some tgt_fks)

/-- `_report_extra_columns`: report Operations for target-only columns. -/
def report_extra_columns (c : SchemaCorrector) (table_name : String) :
    List Operation :=
  let src_cols := colDict (c.source.columns table_name)
  let tgt_cols := colDict (c.target.columns table_name)
  let extra := sortedSetDiff (tgt_cols.map Prod.fst) (src_cols.map Prod.fst)
  extra.map (fun col =>
    ⟨"report", "-- no-op",
      "EXTRA: column exists only in target: " ++ table_name ++ "." ++ col⟩)

/-- The comment of a type-mismatch risky report. -/
def typeMismatchComment (table_name col src_type tgt_type : String) :
    String :=
  "RISKY: type mismatch " ++ table_name ++ "." ++ col ++ ": source=" ++
    src_type ++ " target=" ++ tgt_type

/-- The comment of a nullable-mismatch risky report. -/
def nullableMismatchComment (table_name col : String) : String :=
  "RISKY: nullable mismatch " ++ table_name ++ "." ++ col ++
    ": source NOT NULL, target NULL (need staged backfill + ALTER)"

/-- `_report_risky_differences`: report Operations for type and nullable
divergences of columns present on both sides. -/
def report_risky_differences (c : SchemaCorrector) (table_name : String) :
    List Operation :=
  let src_cols := colDict (c.source.columns table_name)
  let tgt_cols := colDict (c.target.columns table_name)
  src_cols.flatMap (fun p =>
    match dictLookup tgt_cols p.1 with
    | none => []
    | some tgtc =>
      (if p.2.type_sql ≠ tgtc.type_sql then
        [⟨"report", "-- no-op",
          typeMismatchComment table_name p.1 p.2.type_sql tgtc.type_sql⟩]
      else []) ++
      (if p.2.nullable = false ∧ tgtc.nullable = true then
        [⟨"report", "-- no-op",
          nullableMismatchComment table_name p.1⟩]
      else []))

/-- `sorted(tgt_tables - src_tables)` in `diff`. -/
def extraTables (c : SchemaCorrector) : List String :=
  sortedSetDiff c.target.tables c.source.tables

/-- `sorted(src_tables - tgt_tables)` in `diff`. -/
def missingTables (c : SchemaCorrector) : List String :=
  sortedSetDiff c.source.tables c.target.tables

/-- The FK-ordered missing table list `diff` iterates over. -/
def orderedMissingTables (c : SchemaCorrector) : List String :=
  (c.sort_missing_tables_by_fk c.missingTables).1

/-- `sorted(src_tables & tgt_tables)` in `diff`. -/
def commonTables (c : SchemaCorrector) : List String :=
  sortedSetInter c.source.tables c.target.tables

/-- `diff`: the full plan, assembled in the order of the source: extra-table
reports, creations (with per-table indexes) of the FK-ordered missing
tables, per-common-table extra-column reports and column additions, index
additions, foreign keys, risky reports. -/
def diff (c : SchemaCorrector) : List Operation :=
  let extra_reports := (extraTables c).map (fun t =>
    (⟨"report", "-- no-op",
      "EXTRA: table exists only in target: " ++ t⟩ : Operation))
  let missing_tables := orderedMissingTables c
  let create_section := missing_tables.flatMap (fun t =>
    c.plan_create_table t c.is_sqlite ++ c.plan_add_missing_indexes t)
  let common := commonTables c
  let col_section := common.flatMap (fun t =>
    c.report_extra_columns t ++ c.plan_add_missing_columns t)
  let idx_section := common.flatMap (fun t => c.plan_add_missing_indexes t)
  let fk_ops :=
    (if c.is_sqlite then []
      else missing_tables.flatMap
        (fun t => c.plan_add_foreign_keys_for_new_table t)) ++
    common.flatMap (fun t => c.plan_add_missing_foreign_keys t)
  let risky := common.flatMap (fun t => c.report_risky_differences t)
  extra_reports ++ create_section ++ col_section ++ idx_section ++
    fk_ops ++ risky

end SchemaCorrector

/-- Observable effects of one `apply` run: console prints, log records at
the used severities, and the interactions with the target engine. -/
inductive Event where
  | printed : String → Event
  | logInfo : String → Event
  | logError : String → Event
  | logCritical : String → Event
  | began : Event
  | executed : String → Event
  | committed : Event
  | rolledBack : Event
deriving DecidableEq, Repr

namespace SchemaCorrector

/-- The session-timeout statements `_apply_timeouts` issues (PostgreSQL
only; non-positive timeouts are skipped). -/
def applyTimeoutsSQL (c : SchemaCorrector) : List String :=
  if c.target.dialect ≠ "postgresql" then []
  else
    (if c.lock_timeout_seconds > 0 then
      ["SET lock_timeout = \x27" ++ toString c.lock_timeout_seconds ++
        "s\x27"]
    else []) ++
    (if c.statement_timeout_seconds > 0 then
      ["SET statement_timeout = \x27" ++
        toString c.statement_timeout_seconds ++ "s\x27"]
    else [])

/-- Execute a list of raw statements (used for the timeout settings);
`execOK` tells whether a statement succeeds against the target.  Returns
the emitted events and, on failure, the failing statement. -/
def execStatements (execOK : String → Bool) :
    List String → List Event × Option String
  | [] => ([], none)
  | s :: rest =>
    if execOK s then
      let r := execStatements execOK rest
      (Event.executed s :: r.1, r.2)
    else ([], some s)

/-- The `for i, op in enumerate(ops_list, start=1)` execution loop of
`apply`: logs each operation, skips reports (with a log entry), executes
everything else, and stops at the first failing statement. -/
def execLoop (execOK : String → Bool) (total : Nat) :
    Nat → List Operation → List Event × Option String
  | _, [] => ([], none)
  | i, op :: rest =>
    let logE := Event.logInfo ("Executing op " ++ toString i ++ "/" ++
      toString total ++ ": " ++ op.kind ++ " (" ++ op.comment ++ ")")
    if op.kind = "report" then
      let r := execLoop execOK total (i + 1) rest
      (logE :: Event.logInfo ("Skipping report op: " ++ op.comment) ::
        r.1, r.2)
    else if execOK op.sql then
      let r := execLoop execOK total (i + 1) rest
      (logE :: Event.executed op.sql :: r.1, r.2)
    else ([logE], some op.sql)

/-- The console line `apply` prints for one operation in dry-run mode. -/
def dryRunPrint (op : Operation) : String :=
  "-- " ++ op.kind ++ ": " ++ op.comment ++ "\n" ++ op.sql ++ "\n"

/-- `apply`: in dry-run mode prints every operation and touches no engine;
otherwise opens one transaction, applies the session timeouts, executes
the non-report operations in order, and on any execution failure rolls the
transaction back, logs at error then critical severity and re-raises.
Returns the event trace and whether the exception was re-raised.  The
exception text is abstracted by the failing statement. -/
def apply (c : SchemaCorrector) (ops : List Operation) (dry_run : Bool)
    (execOK : String → Bool) : List Event × Bool :=
  let callLog := Event.logInfo ("Apply called. dry_run=" ++
    toString dry_run ++ ", ops=" ++ toString ops.length)
  if dry_run then
    (callLog :: ops.map (fun op => Event.printed (dryRunPrint op)) ++
      [Event.logInfo "Dry-run finished. No changes applied."], false)
  else
    let t := execStatements execOK c.applyTimeoutsSQL
    match t.2 with
    | some failedSql =>
      (callLog :: Event.began :: t.1 ++
        [Event.rolledBack,
          Event.logError ("Apply failed: " ++ failedSql),
          Event.logCritical "Schema correction aborted due to error."],
        true)
    | none =>
      let r := execLoop execOK ops.length 1 ops
      match r.2 with
      | some failedSql =>
        (callLog :: Event.began :: t.1 ++ r.1 ++
          [Event.rolledBack,
            Event.logError ("Apply failed: " ++ failedSql),
            Event.logCritical "Schema correction aborted due to error."],
          true)
      | none =>
        (callLog :: Event.began :: t.1 ++ r.1 ++
          [Event.committed,
            Event.logInfo "Apply finished successfully."],
          false)

end SchemaCorrector

/-- The SQL statements actually executed against the target in a trace. -/
def executedSqls (evs : List Event) : List String :=
  evs.filterMap (fun e => match e with
    | Event.executed s => some s
    | _ => none)

/-- Whether an event is an interaction with the target engine. -/
def isDbEvent : Event → Bool
  | Event.began => true
  | Event.executed _ => true
  | Event.committed => true
  | Event.rolledBack => true
  | _ => false

/-- Fixture: SQLite target; `orders` (with an FK to `users`) exists only in
the source, `users` on both sides. -/
def corrC1 : SchemaCorrector where
  source :=
    { dialect := "postgresql"
      tables := ["orders", "users"]
      columns := fun t =>
        if t = "orders" then
          [⟨"id", "INTEGER", false⟩, ⟨"user_id", "INTEGER", true⟩]
        else if t = "users" then [⟨"id", "INTEGER", false⟩]
        else []
      fks := fun t =>
        if t = "orders" then
          [⟨some "fk_orders_users", ["user_id"], none, some "users",
            ["id"], none, none⟩]
        else []
      indexes := fun _ => []
      reflected_indexes := fun _ => [] }
  target :=
    { dialect := "sqlite"
      tables := ["users"]
      columns := fun t =>
        if t = "users" then [⟨"id", "INTEGER", false⟩] else []
      fks := fun _ => []
      indexes := fun _ => []
      reflected_indexes := fun _ => [] }
  schema := none
  lock_timeout_seconds := 10
  statement_timeout_seconds := 0

/-- Fixture: SQLite target; tables `a`, `b` common, the source `a` has an
FK to `b` that the target lacks. -/
def corrC2 : SchemaCorrector where
  source :=
    { dialect := "postgresql"
      tables := ["a", "b"]
      columns := fun _ => [⟨"id", "INTEGER", false⟩]
      fks := fun t =>
        if t = "a" then
          [⟨some "fk_a_b", ["bid"], none, some "b", ["id"], none, none⟩]
        else []
      indexes := fun _ => []
      reflected_indexes := fun _ => [] }
  target :=
    { dialect := "sqlite"
      tables := ["a", "b"]
      columns := fun _ => [⟨"id", "INTEGER", false⟩]
      fks := fun _ => []
      indexes := fun _ => []
      reflected_indexes := fun _ => [] }
  schema := none
  lock_timeout_seconds := 10
  statement_timeout_seconds := 0

/-- Fixture: both `a` and `b` missing from the target and referencing each
other via FK (a dependency cycle). -/
def corrCyc : SchemaCorrector where
  source :=
    { dialect := "postgresql"
      tables := ["a", "b"]
      columns := fun _ => [⟨"id", "INTEGER", false⟩]
      fks := fun t =>
        if t = "a" then
          [⟨some "fk_a_b", ["bid"], none, some "b", ["id"], none, none⟩]
        else if t = "b" then
          [⟨some "fk_b_a", ["aid"], none, some "a", ["id"], none, none⟩]
        else []
      indexes := fun _ => []
      reflected_indexes := fun _ => [] }
  target :=
    { dialect := "postgresql"
      tables := []
      columns := fun _ => []
      fks := fun _ => []
      indexes := fun _ => []
      reflected_indexes := fun _ => [] }
  schema := none
  lock_timeout_seconds := 10
  statement_timeout_seconds := 0

/-- Fixture: `child` and `parent` missing from the target, `child`
referencing `parent` via FK (acyclic dependency). -/
def corrAcy : SchemaCorrector where
  source :=
    { dialect := "postgresql"
      tables := ["child", "parent"]
      columns := fun _ => [⟨"id", "INTEGER", false⟩]
      fks := fun t =>
        if t = "child" then
          [⟨some "fk_child_parent", ["pid"], none, some "parent", ["id"],
            none, none⟩]
        else []
      indexes := fun _ => []
      reflected_indexes := fun _ => [] }
  target :=
    { dialect := "postgresql"
      tables := []
      columns := fun _ => []
      fks := fun _ => []
      indexes := fun _ => []
      reflected_indexes := fun _ => [] }
  schema := none
  lock_timeout_seconds := 10
  statement_timeout_seconds := 0

/-- Fixture: common table `t` whose column `x` diverges in type and in
nullability between source and target. -/
def corrC5 : SchemaCorrector where
  source :=
    { dialect := "postgresql"
      tables := ["t"]
      columns := fun tb =>
        if tb = "t" then [⟨"x", "INTEGER", false⟩] else []
      fks := fun _ => []
      indexes := fun _ => []
      reflected_indexes := fun _ => [] }
  target :=
    { dialect := "postgresql"
      tables := ["t"]
      columns := fun tb =>
        if tb = "t" then [⟨"x", "TEXT", true⟩] else []
      fks := fun _ => []
      indexes := fun _ => []
      reflected_indexes := fun _ => [] }
  schema := none
  lock_timeout_seconds := 10
  statement_timeout_seconds := 0

/-- Fixture: target with an existing index `ix_old`; the source table `t`
exposes `ix_a` both through reflection and through introspection, plus an
introspection-only `ix_b`. -/
def corrC10 : SchemaCorrector where
  source :=
    { dialect := "postgresql"
      tables := ["t"]
      columns := fun tb =>
        if tb = "t" then [⟨"x", "INTEGER", false⟩] else []
      fks := fun _ => []
      indexes := fun tb =>
        if tb = "t" then
          [⟨some "ix_a", ["x"], false⟩, ⟨some "ix_b", ["x"], true⟩,
            ⟨some "ix_old", ["x"], false⟩]
        else []
      reflected_indexes := fun tb =>
        if tb = "t" then [⟨some "ix_a", ["x"], false⟩] else [] }
  target :=
    { dialect := "postgresql"
      tables := ["t"]
      columns := fun tb =>
        if tb = "t" then [⟨"x", "INTEGER", false⟩] else []
      fks := fun _ => []
      indexes := fun tb =>
        if tb = "t" then [⟨some "ix_old", ["x"], false⟩] else []
      reflected_indexes := fun _ => [] }
  schema := none
  lock_timeout_seconds := 10
  statement_timeout_seconds := 0

/-- Fixture: a corrector whose target is SQLite with no tables (used for
the `apply` witnesses; `apply` only reads the target dialect and the
timeout settings). -/
def corrApply : SchemaCorrector where
  source :=
    { dialect := "sqlite"
      tables := []
      columns := fun _ => []
      fks := fun _ => []
      indexes := fun _ => []
      reflected_indexes := fun _ => [] }
  target :=
    { dialect := "sqlite"
      tables := []
      columns := fun _ => []
      fks := fun _ => []
      indexes := fun _ => []
      reflected_indexes := fun _ => [] }
  schema := none
  lock_timeout_seconds := 10
  statement_timeout_seconds := 0

/-- Fixture operations for the `apply` witnesses. -/
def opsApply : List Operation :=
  [⟨"report", "-- no-op", "EXTRA: table exists only in target: n"⟩,
    ⟨"create_table", "CREATE TABLE \"t\" (\"id\" INTEGER);",
      "Create table t"⟩,
    ⟨"add_column", "ALTER TABLE \"t\" ADD COLUMN \"c\" INTEGER;",
      "Add column t.c"⟩]

/-- Fixture FK record lacking a referred table (for the C9 witness). -/
def fkNoRef : FKInfo :=
  ⟨some "fk_bad", ["x"], none, none, ["y"], none, none⟩

/-- Fixture FK record with full data (for the C9 witness). -/
def fkGood : FKInfo :=
  ⟨some "fk_good", ["x"], none, some "p", ["id"], none, none⟩

/-! ## General lemmas -/

theorem string_append_right_cancel {a b b' : String}
    (h : a ++ b = a ++ b') : b = b' := by
  have hd : b.data = b'.data := by
    have hda := congrArg String.data h
    simp only [String.data_append] at hda
    exact List.append_cancel_left hda
  cases b; cases b'
  exact congrArg String.mk hd

theorem string_append_ne {a b b' : String} (h : b ≠ b') :
    a ++ b ≠ a ++ b' :=
  fun hc => h (string_append_right_cancel hc)

theorem strStartsWith_append (p s : String) :
    strStartsWith (p ++ s) p = true := by
  simp [strStartsWith, String.data_append, List.isPrefixOf_iff_prefix,
    List.prefix_append]

theorem removeprefixStr_append (p s : String) :
    removeprefixStr (p ++ s) p = s := by
  simp only [removeprefixStr, strStartsWith_append, if_pos]
  have : (p ++ s).data.drop p.data.length = s.data := by
    simp [String.data_append, List.drop_left]
  rw [this]

theorem headD_mem_of_ne_nil {l : List String} (h : l ≠ []) :
    l.headD "" ∈ l := by
  cases l with
  | nil => exact absurd rfl h
  | cons x xs => simp [List.headD]

theorem nodup_length_le_of_subset {l₁ l₂ : List String}
    (hnd : l₁.Nodup) (hsub : l₁ ⊆ l₂) : l₁.length ≤ l₂.length := by
  calc l₁.length = l₁.toFinset.card := (List.toFinset_card_of_nodup hnd).symm
    _ ≤ l₂.toFinset.card := by
        apply Finset.card_le_card
        intro x hx
        simp only [List.mem_toFinset] at hx ⊢
        exact hsub hx
    _ ≤ l₂.length := List.toFinset_card_le l₂

theorem indexOf_lt_of_mem_take {b : String} :
    ∀ (l : List String) (i : Nat), b ∈ l.take i → List.indexOf b l < i := by
  intro l
  induction l with
  | nil => intro i h; simp at h
  | cons x xs ih =>
    intro i h
    cases i with
    | zero => simp at h
    | succ k =>
      simp only [List.take_succ_cons, List.mem_cons] at h
      by_cases hbx : b = x
      · subst hbx; simp [List.indexOf_cons_self]
      · rcases h with h | h
        · exact absurd h hbx
        · rw [List.indexOf_cons_ne _ (fun he => hbx he.symm)]
          exact Nat.succ_lt_succ (ih k h)

theorem exists_transGen_self {α : Type} [DecidableEq α] (S : List α)
    (f : α → α) (r : α → α → Prop) (hS : S ≠ [])
    (hstep : ∀ t ∈ S, f t ∈ S ∧ r t (f t)) :
    ∃ t, Relation.TransGen r t t := by
  obtain ⟨t0, ht0⟩ := List.exists_mem_of_ne_nil S hS
  have hiterS : ∀ (k : Nat) (x : α), x ∈ S → f^[k] x ∈ S := by
    intro k
    induction k with
    | zero => intro x hx; simpa using hx
    | succ m ih =>
      intro x hx
      rw [Function.iterate_succ_apply']
      exact (hstep _ (ih x hx)).1
  have hiter : ∀ k, f^[k] t0 ∈ S := fun k => hiterS k t0 ht0
  have hchain : ∀ m (x : α), x ∈ S → 0 < m →
      Relation.TransGen r x (f^[m] x) := by
    intro m
    induction m with
    | zero => intro x _ h; exact absurd h (by simp)
    | succ k ih =>
      intro x hx _
      cases Nat.eq_zero_or_pos k with
      | inl hk0 =>
        subst hk0
        simpa using Relation.TransGen.single (hstep x hx).2
      | inr hkpos =>
        rw [Function.iterate_succ_apply']
        exact Relation.TransGen.tail (ih x hx hkpos)
          (hstep _ (hiterS k x hx)).2
  have hcard : S.toFinset.card < (Finset.range (S.length + 1)).card := by
    rw [Finset.card_range]
    exact Nat.lt_succ_of_le (List.toFinset_card_le S)
  obtain ⟨i, hi, j, hj, hij, heq⟩ :=
    Finset.exists_ne_map_eq_of_card_lt_of_maps_to hcard
      (fun k _ => by simp only [List.mem_toFinset]; exact hiter k)
  rcases Nat.lt_or_ge i j with hlt | hge
  · refine ⟨f^[i] t0, ?_⟩
    have hx : f^[i] t0 ∈ S := hiter i
    have hm : Relation.TransGen r (f^[i] t0) (f^[j - i] (f^[i] t0)) :=
      hchain (j - i) _ hx (Nat.sub_pos_of_lt hlt)
    rw [← Function.iterate_add_apply, Nat.sub_add_cancel (Nat.le_of_lt hlt),
      ← heq] at hm
    exact hm
  · have hlt : j < i := Nat.lt_of_le_of_ne hge (fun he => hij he.symm)
    refine ⟨f^[j] t0, ?_⟩
    have hx : f^[j] t0 ∈ S := hiter j
    have hm : Relation.TransGen r (f^[j] t0) (f^[i - j] (f^[j] t0)) :=
      hchain (i - j) _ hx (Nat.sub_pos_of_lt hlt)
    rw [← Function.iterate_add_apply, Nat.sub_add_cancel (Nat.le_of_lt hlt),
      heq] at hm
    exact hm

/-! ## Lemmas about the inner loop `processDeps` -/

theorem erase_eq_nil_cases {l : List String} {a : String}
    (h : l.erase a = []) : l = [] ∨ l = [a] := by
  cases l with
  | nil => exact Or.inl rfl
  | cons x xs =>
    rw [List.erase_cons] at h
    by_cases hxa : x = a
    · subst hxa
      simp only [beq_self_eq_true, if_pos] at h
      subst h
      exact Or.inr rfl
    · rw [if_neg (by simpa using hxa)] at h
      exact absurd h (by simp)

theorem eraseDep_nodup {deps : String → List String} {t n : String}
    (hnd : ∀ v, (deps v).Nodup) : ∀ v, ((eraseDep deps t n) v).Nodup := by
  intro v
  by_cases hv : v = t
  · subst hv
    simp only [eraseDep, if_pos rfl]
    exact List.Nodup.erase n (hnd v)
  · simp only [eraseDep, if_neg hv]
    exact hnd v

theorem eraseDep_self (deps : String → List String) (t n : String) :
    eraseDep deps t n t = (deps t).erase n := by
  simp [eraseDep]

theorem eraseDep_other {deps : String → List String} {t n u : String}
    (h : u ≠ t) : eraseDep deps t n u = deps u := by
  simp [eraseDep, h]

theorem processDeps_fst_cases (n : String) : ∀ (ts : List String)
    (deps : String → List String) (ready out : List String) (u : String),
    (∀ v, (deps v).Nodup) →
    (processDeps n ts deps ready out).1 u = deps u ∨
      (processDeps n ts deps ready out).1 u = (deps u).erase n := by
  intro ts
  induction ts with
  | nil => intro deps ready out u _; exact Or.inl rfl
  | cons t ts ih =>
    intro deps ready out u hnd
    have hnd1 := eraseDep_nodup (t := t) (n := n) hnd
    have key : ∀ r' : List String,
        (processDeps n ts (eraseDep deps t n) r' out).1 u = deps u ∨
        (processDeps n ts (eraseDep deps t n) r' out).1 u =
          (deps u).erase n := by
      intro r'
      rcases ih (eraseDep deps t n) r' out u hnd1 with h | h
      · by_cases hu : u = t
        · subst hu
          rw [eraseDep_self] at h
          exact Or.inr h
        · rw [eraseDep_other hu] at h
          exact Or.inl h
      · by_cases hu : u = t
        · subst hu
          rw [eraseDep_self] at h
          have hnm : n ∉ (deps u).erase n := List.Nodup.not_mem_erase (hnd u)
          rw [List.erase_of_not_mem hnm] at h
          exact Or.inr h
        · rw [eraseDep_other hu] at h
          exact Or.inr h
    simp only [processDeps]
    by_cases h1 : n ∈ deps t
    · rw [if_pos h1]
      by_cases h2 : (deps t).erase n = [] ∧ t ∉ out ∧ t ∉ ready
      · rw [if_pos h2]; exact key _
      · rw [if_neg h2]; exact key _
    · rw [if_neg h1]
      exact ih deps ready out u hnd

theorem processDeps_fst_of_not_mem (n : String) : ∀ (ts : List String)
    (deps : String → List String) (ready out : List String) (u : String),
    u ∉ ts → (processDeps n ts deps ready out).1 u = deps u := by
  intro ts
  induction ts with
  | nil => intro deps ready out u _; rfl
  | cons t ts ih =>
    intro deps ready out u hu
    have hut : u ≠ t := fun he => hu (he ▸ List.mem_cons_self t ts)
    have huts : u ∉ ts := fun he => hu (List.mem_cons_of_mem t he)
    have key : ∀ r' : List String,
        (processDeps n ts (eraseDep deps t n) r' out).1 u = deps u := by
      intro r'
      rw [ih (eraseDep deps t n) r' out u huts, eraseDep_other hut]
    simp only [processDeps]
    by_cases h1 : n ∈ deps t
    · rw [if_pos h1]
      by_cases h2 : (deps t).erase n = [] ∧ t ∉ out ∧ t ∉ ready
      · rw [if_pos h2]; exact key _
      · rw [if_neg h2]; exact key _
    · rw [if_neg h1]
      exact ih deps ready out u huts

theorem processDeps_not_mem_fst (n : String) : ∀ (ts : List String)
    (deps : String → List String) (ready out : List String) (t : String),
    (∀ v, (deps v).Nodup) → t ∈ ts →
    n ∉ (processDeps n ts deps ready out).1 t := by
  intro ts
  induction ts with
  | nil => intro deps ready out t _ h; simp at h
  | cons t0 ts ih =>
    intro deps ready out t hnd hmem
    have hnd1 := eraseDep_nodup (t := t0) (n := n) hnd
    by_cases ht : t = t0
    · subst ht
      have hafter : ∀ (d : String → List String) (r' : List String),
          (∀ v, (d v).Nodup) → n ∉ d t →
          n ∉ (processDeps n ts d r' out).1 t := by
        intro d r' hndd hnd0 hmem2
        rcases processDeps_fst_cases n ts d r' out t hndd with h | h
        · rw [h] at hmem2; exact hnd0 hmem2
        · rw [h] at hmem2; exact hnd0 (List.mem_of_mem_erase hmem2)
      simp only [processDeps]
      by_cases h1 : n ∈ deps t
      · rw [if_pos h1]
        have hnd0 : n ∉ eraseDep deps t n t := by
          rw [eraseDep_self]
          exact List.Nodup.not_mem_erase (hnd t)
        by_cases h2 : (deps t).erase n = [] ∧ t ∉ out ∧ t ∉ ready
        · rw [if_pos h2]; exact hafter _ _ hnd1 hnd0
        · rw [if_neg h2]; exact hafter _ _ hnd1 hnd0
      · rw [if_neg h1]
        exact hafter _ _ hnd h1
    · have hts : t ∈ ts := by
        rcases List.mem_cons.mp hmem with h | h
        · exact absurd h ht
        · exact h
      simp only [processDeps]
      by_cases h1 : n ∈ deps t0
      · rw [if_pos h1]
        by_cases h2 : (deps t0).erase n = [] ∧ t0 ∉ out ∧ t0 ∉ ready
        · rw [if_pos h2]; exact ih _ _ _ _ hnd1 hts
        · rw [if_neg h2]; exact ih _ _ _ _ hnd1 hts
      · rw [if_neg h1]
        exact ih _ _ _ _ hnd hts

theorem processDeps_snd_extend (n : String) : ∀ (ts : List String)
    (deps : String → List String) (ready out : List String),
    (∀ v, (deps v).Nodup) →
    ∃ new : List String,
      (processDeps n ts deps ready out).2 = new ++ ready ∧ new.Nodup ∧
      ∀ t ∈ new, t ∈ ts ∧ t ∉ out ∧ t ∉ ready ∧
        (processDeps n ts deps ready out).1 t = [] := by
  intro ts
  induction ts with
  | nil =>
    intro deps ready out _
    exact ⟨[], rfl, List.nodup_nil, by simp⟩
  | cons t0 ts ih =>
    intro deps ready out hnd
    have hnd1 := eraseDep_nodup (t := t0) (n := n) hnd
    simp only [processDeps]
    by_cases h1 : n ∈ deps t0
    · rw [if_pos h1]
      by_cases h2 : (deps t0).erase n = [] ∧ t0 ∉ out ∧ t0 ∉ ready
      · rw [if_pos h2]
        obtain ⟨new, hr, hnds, hprop⟩ :=
          ih (eraseDep deps t0 n) (t0 :: ready) out hnd1
        refine ⟨new ++ [t0], by simpa using hr, ?_, ?_⟩
        · have ht0new : t0 ∉ new := by
            intro hmem
            exact ((hprop t0 hmem).2.2.1) (List.mem_cons_self t0 ready)
          simp [List.nodup_append, hnds, ht0new]
        · intro t hmem
          rcases List.mem_append.mp hmem with h | h
          · obtain ⟨hts, hout, hready, hempty⟩ := hprop t h
            exact ⟨List.mem_cons_of_mem t0 hts, hout,
              fun hc => hready (List.mem_cons_of_mem t0 hc), hempty⟩
          · have ht : t = t0 := by simpa using h
            subst ht
            refine ⟨List.mem_cons_self t ts, h2.2.1, h2.2.2, ?_⟩
            have hD : eraseDep deps t n t = [] := by
              rw [eraseDep_self]; exact h2.1
            rcases processDeps_fst_cases n ts (eraseDep deps t n)
                (t :: ready) out t hnd1 with h' | h'
            · rw [h', hD]
            · rw [h', hD, List.erase_nil]
      · rw [if_neg h2]
        obtain ⟨new, hr, hnds, hprop⟩ :=
          ih (eraseDep deps t0 n) ready out hnd1
        refine ⟨new, hr, hnds, ?_⟩
        intro t hmem
        obtain ⟨hts, hout, hready, hempty⟩ := hprop t hmem
        exact ⟨List.mem_cons_of_mem t0 hts, hout, hready, hempty⟩
    · rw [if_neg h1]
      obtain ⟨new, hr, hnds, hprop⟩ := ih deps ready out hnd
      refine ⟨new, hr, hnds, ?_⟩
      intro t hmem
      obtain ⟨hts, hout, hready, hempty⟩ := hprop t hmem
      exact ⟨List.mem_cons_of_mem t0 hts, hout, hready, hempty⟩

theorem processDeps_ready_sub (n : String) (ts : List String)
    (deps : String → List String) (ready out : List String)
    (hnd : ∀ v, (deps v).Nodup) :
    ready ⊆ (processDeps n ts deps ready out).2 := by
  obtain ⟨new, hr, _, _⟩ := processDeps_snd_extend n ts deps ready out hnd
  rw [hr]
  exact fun x hx => List.mem_append_right new hx

theorem processDeps_six (n : String) : ∀ (ts : List String)
    (deps : String → List String) (ready out : List String) (t : String),
    (∀ v, (deps v).Nodup) → t ∈ ts →
    (processDeps n ts deps ready out).1 t = [] →
    deps t = [] ∨ t ∈ out ∨ t ∈ (processDeps n ts deps ready out).2 := by
  intro ts
  induction ts with
  | nil => intro deps ready out t _ h; simp at h
  | cons t0 ts ih =>
    intro deps ready out t hnd hmem hempty
    have hnd1 := eraseDep_nodup (t := t0) (n := n) hnd
    by_cases ht : t = t0
    · subst ht
      simp only [processDeps] at hempty ⊢
      by_cases h1 : n ∈ deps t
      · rw [if_pos h1] at hempty ⊢
        by_cases h2 : (deps t).erase n = [] ∧ t ∉ out ∧ t ∉ ready
        · rw [if_pos h2] at hempty ⊢
          refine Or.inr (Or.inr ?_)
          exact processDeps_ready_sub n ts _ _ out hnd1
            (List.mem_cons_self t ready)
        · rw [if_neg h2] at hempty ⊢
          have hDe : (deps t).erase n = [] := by
            rcases processDeps_fst_cases n ts (eraseDep deps t n) ready out
                t hnd1 with h' | h'
            · rw [h', eraseDep_self] at hempty
              exact hempty
            · rw [h', eraseDep_self] at hempty
              rcases erase_eq_nil_cases hempty with hc | hc
              · exact hc
              · exfalso
                have : n ∈ (deps t).erase n := by rw [hc]; simp
                exact List.Nodup.not_mem_erase (hnd t) this
          rcases not_and_or.mp h2 with hc | hc
          · exact absurd hDe hc
          · rcases not_and_or.mp hc with hc' | hc'
            · exact Or.inr (Or.inl (not_not.mp hc'))
            · refine Or.inr (Or.inr ?_)
              exact processDeps_ready_sub n ts _ _ out hnd1
                (not_not.mp hc')
      · rw [if_neg h1] at hempty ⊢
        rcases processDeps_fst_cases n ts deps ready out t hnd with h' | h'
        · rw [h'] at hempty
          exact Or.inl hempty
        · rw [h', List.erase_of_not_mem h1] at hempty
          exact Or.inl hempty
    · have hts : t ∈ ts := by
        rcases List.mem_cons.mp hmem with h | h
        · exact absurd h ht
        · exact h
      simp only [processDeps] at hempty ⊢
      by_cases h1 : n ∈ deps t0
      · rw [if_pos h1] at hempty ⊢
        by_cases h2 : (deps t0).erase n = [] ∧ t0 ∉ out ∧ t0 ∉ ready
        · rw [if_pos h2] at hempty ⊢
          rcases ih (eraseDep deps t0 n) (t0 :: ready) out t hnd1 hts
              hempty with h | h
          · rw [eraseDep_other ht] at h
            exact Or.inl h
          · exact Or.inr h
        · rw [if_neg h2] at hempty ⊢
          rcases ih (eraseDep deps t0 n) ready out t hnd1 hts hempty
              with h | h
          · rw [eraseDep_other ht] at h
            exact Or.inl h
          · exact Or.inr h
      · rw [if_neg h1] at hempty ⊢
        exact ih deps ready out t hnd hts hempty

theorem processDeps_nodup (n : String) (ts : List String)
    (deps : String → List String) (ready out : List String)
    (hnd : ∀ v, (deps v).Nodup) :
    ∀ v, ((processDeps n ts deps ready out).1 v).Nodup := by
  intro v
  rcases processDeps_fst_cases n ts deps ready out v hnd with h | h
  · rw [h]; exact hnd v
  · rw [h]; exact List.Nodup.erase n (hnd v)

/-! ## Lemmas about the Kahn loop -/

theorem kahnMeasure_step (missing rest out new : List String) (n : String)
    (hnodup : new.Nodup)
    (hmem : ∀ t ∈ new, t ∈ missing ∧ t ∉ out ++ [n] ∧ t ∉ rest) :
    kahnMeasure missing (new ++ rest) (out ++ [n]) <
      kahnMeasure missing (n :: rest) out := by
  classical
  have hsub : missing.toFinset \
      ((out ++ [n]).toFinset ∪ (new ++ rest).toFinset) ∪ new.toFinset ⊆
      missing.toFinset \ (out.toFinset ∪ (n :: rest).toFinset) := by
    intro x hx
    simp only [Finset.mem_union, Finset.mem_sdiff, List.toFinset_append,
      List.toFinset_cons, List.mem_toFinset, List.mem_append,
      List.mem_singleton, Finset.mem_insert] at hx ⊢
    rcases hx with ⟨hmiss, hno⟩ | hx
    · exact ⟨hmiss, by tauto⟩
    · obtain ⟨hmiss, hnotout, hnotrest⟩ := hmem x hx
      simp only [List.mem_append, List.mem_singleton] at hnotout
      push_neg at hnotout
      exact ⟨hmiss, by tauto⟩
  have hdisj : Disjoint
      (missing.toFinset \ ((out ++ [n]).toFinset ∪ (new ++ rest).toFinset))
      new.toFinset := by
    rw [Finset.disjoint_right]
    intro x hx hx'
    simp only [Finset.mem_sdiff, Finset.mem_union, List.toFinset_append,
      List.mem_toFinset] at hx'
    simp only [List.mem_toFinset] at hx
    exact hx'.2 (Or.inr (Or.inl hx))
  have hcard : (missing.toFinset \
        ((out ++ [n]).toFinset ∪ (new ++ rest).toFinset)).card +
        new.length ≤
      (missing.toFinset \ (out.toFinset ∪ (n :: rest).toFinset)).card := by
    calc (missing.toFinset \
          ((out ++ [n]).toFinset ∪ (new ++ rest).toFinset)).card +
          new.length
        = (missing.toFinset \
          ((out ++ [n]).toFinset ∪ (new ++ rest).toFinset)).card +
          new.toFinset.card := by rw [List.toFinset_card_of_nodup hnodup]
      _ = ((missing.toFinset \
          ((out ++ [n]).toFinset ∪ (new ++ rest).toFinset)) ∪
          new.toFinset).card := (Finset.card_union_of_disjoint hdisj).symm
      _ ≤ _ := Finset.card_le_card hsub
  unfold kahnMeasure
  rw [List.length_append, List.length_cons]
  omega

theorem kahnLoop_ready_nil (missing : List String) : ∀ (fuel : Nat)
    (deps : String → List String) (ready out : List String),
    (∀ v, (deps v).Nodup) → kahnMeasure missing ready out < fuel →
    (kahnLoop missing fuel deps ready out).2.2 = [] := by
  intro fuel
  induction fuel with
  | zero => intro deps ready out _ h; exact absurd h (Nat.not_lt_zero _)
  | succ f ih =>
    intro deps ready out hnd hm
    cases ready with
    | nil => rfl
    | cons n rest =>
      show (kahnLoop missing f
        (processDeps n missing deps rest (out ++ [n])).1
        (processDeps n missing deps rest (out ++ [n])).2
        (out ++ [n])).2.2 = []
      obtain ⟨new, hr, hnds, hprop⟩ :=
        processDeps_snd_extend n missing deps rest (out ++ [n]) hnd
      have hmem : ∀ t ∈ new, t ∈ missing ∧ t ∉ out ++ [n] ∧ t ∉ rest :=
        fun t ht => ⟨(hprop t ht).1, (hprop t ht).2.1, (hprop t ht).2.2.1⟩
      have hstep := kahnMeasure_step missing rest out new n hnds hmem
      apply ih _ _ _ (processDeps_nodup n missing deps rest (out ++ [n]) hnd)
      rw [hr]
      exact Nat.lt_of_lt_of_le hstep (Nat.lt_succ_iff.mp hm)

theorem kahnInv_step (c : SchemaCorrector) (missing : List String)
    (deps : String → List String) (n : String) (rest out : List String)
    (hinv : KahnInv c missing deps (n :: rest) out) :
    KahnInv c missing
      (processDeps n missing deps rest (out ++ [n])).1
      (processDeps n missing deps rest (out ++ [n])).2
      (out ++ [n]) := by
  obtain ⟨hnm, hdepsn, hnout⟩ := hinv.readyMem n (List.mem_cons_self n rest)
  have hnd := hinv.depsNodup
  obtain ⟨new, hr, hnds, hprop⟩ :=
    processDeps_snd_extend n missing deps rest (out ++ [n]) hnd
  have hrestnd : rest.Nodup := hinv.readyNodup.of_cons
  have hnrest : n ∉ rest := by
    have := hinv.readyNodup
    simp only [List.nodup_cons] at this
    exact this.1
  constructor
  · exact processDeps_nodup n missing deps rest (out ++ [n]) hnd
  · intro v
    rcases processDeps_fst_cases n missing deps rest (out ++ [n]) v hnd
        with h | h
    · rw [h]; exact hinv.depsSub v
    · rw [h]
      exact fun x hx => hinv.depsSub v (List.erase_subset n (deps v) hx)
  · intro t ht u hu
    rcases hinv.depsCover t ht u hu with h | h
    · rcases processDeps_fst_cases n missing deps rest (out ++ [n]) t hnd
          with h' | h'
      · rw [h']; exact Or.inl h
      · by_cases hun : u = n
        · subst hun
          exact Or.inr (by simp)
        · rw [h']
          exact Or.inl ((List.mem_erase_of_ne hun).mpr h)
    · exact Or.inr (List.mem_append_left _ h)
  · intro t ht
    rw [hr] at ht
    rcases List.mem_append.mp ht with h | h
    · obtain ⟨htm, htout, _, hempty⟩ := hprop t h
      exact ⟨htm, hempty, htout⟩
    · obtain ⟨htm, htdeps, htout⟩ :=
        hinv.readyMem t (List.mem_cons_of_mem n h)
      have htn : t ≠ n := fun he => hnrest (he ▸ h)
      refine ⟨htm, ?_, ?_⟩
      · rcases processDeps_fst_cases n missing deps rest (out ++ [n]) t hnd
            with h' | h'
        · rw [h']; exact htdeps
        · rw [h', htdeps, List.erase_nil]
      · simp only [List.mem_append, List.mem_singleton]
        push_neg
        exact ⟨htout, htn⟩
  · rw [hr]
    have hdisj : ∀ t ∈ new, t ∉ rest := fun t ht => (hprop t ht).2.2.1
    simp only [List.nodup_append]
    exact ⟨hnds, hrestnd, hdisj⟩
  · intro t ht
    rcases List.mem_append.mp ht with h | h
    · exact hinv.outMem t h
    · have : t = n := by simpa using h
      subst this
      exact hnm
  · simp only [List.nodup_append]
    refine ⟨hinv.outNodup, List.nodup_singleton n, ?_⟩
    intro x hx
    simp only [List.mem_singleton]
    exact fun he => hnout (he ▸ hx)
  · intro u hu t ht
    rcases List.mem_append.mp hu with h | h
    · have hclean := hinv.outClean u h t ht
      rcases processDeps_fst_cases n missing deps rest (out ++ [n]) t hnd
          with h' | h'
      · rw [h']; exact hclean
      · rw [h']
        exact fun hc => hclean (List.mem_of_mem_erase hc)
    · have hun : u = n := by simpa using h
      rw [hun]
      exact processDeps_not_mem_fst n missing deps rest (out ++ [n]) t
        hnd ht
  · intro t ht hempty
    rcases processDeps_six n missing deps rest (out ++ [n]) t hnd ht
        hempty with h | h | h
    · rcases hinv.emptyIn t ht h with h' | h'
      · exact Or.inl (List.mem_append_left _ h')
      · rcases List.mem_cons.mp h' with h'' | h''
        · subst h''
          exact Or.inl (by simp)
        · exact Or.inr (processDeps_ready_sub n missing deps rest
            (out ++ [n]) hnd h'')
    · exact Or.inl h
    · exact Or.inr h
  · intro i hi u hu
    rcases Nat.lt_or_ge i out.length with hlt | hge
    · have hget : (out ++ [n]).get ⟨i, hi⟩ = out.get ⟨i, hlt⟩ := by
        simp only [List.get_eq_getElem]
        exact List.getElem_append_left hlt
      rw [hget] at hu
      have htake : (out ++ [n]).take i = out.take i :=
        List.take_append_of_le_length (Nat.le_of_lt hlt)
      rw [htake]
      exact hinv.topo i hlt u hu
    · have hieq : i = out.length := by
        have : i < out.length + 1 := by simpa using hi
        omega
      have hget : (out ++ [n]).get ⟨i, hi⟩ = n := by
        simp only [List.get_eq_getElem]
        exact List.getElem_concat_length out n i hieq _
      rw [hget] at hu
      rcases hinv.depsCover n hnm u hu with h | h
      · rw [hdepsn] at h
        simp at h
      · subst hieq
        rw [List.take_left]
        exact h

theorem kahnLoop_inv (c : SchemaCorrector) (missing : List String) :
    ∀ (fuel : Nat) (deps : String → List String) (ready out : List String),
    KahnInv c missing deps ready out →
    KahnInv c missing
      (kahnLoop missing fuel deps ready out).2.1
      (kahnLoop missing fuel deps ready out).2.2
      (kahnLoop missing fuel deps ready out).1 := by
  intro fuel
  induction fuel with
  | zero => intro deps ready out hinv; exact hinv
  | succ f ih =>
    intro deps ready out hinv
    cases ready with
    | nil => exact hinv
    | cons n rest =>
      exact ih _ _ _ (kahnInv_step c missing deps n rest out hinv)

/-! ## The dependency graph of the orderer -/

theorem addDep_nodup {s : List String} {x : String} (h : s.Nodup) :
    (addDep s x).Nodup := by
  unfold addDep
  by_cases hx : x ∈ s
  · rw [if_pos hx]; exact h
  · rw [if_neg hx]
    simp [List.nodup_append, h, hx]

theorem addDep_mem_cases {s : List String} {x y : String}
    (h : y ∈ addDep s x) : y ∈ s ∨ y = x := by
  unfold addDep at h
  by_cases hx : x ∈ s
  · rw [if_pos hx] at h; exact Or.inl h
  · rw [if_neg hx] at h
    rcases List.mem_append.mp h with h | h
    · exact Or.inl h
    · exact Or.inr (by simpa using h)

theorem restrictedDeps_nodup (c : SchemaCorrector) (missing : List String)
    (t : String) : (restrictedDeps c missing t).Nodup := by
  unfold restrictedDeps
  have key : ∀ (fks : List FKInfo) (acc : List String), acc.Nodup →
      (fks.foldl (fun acc fk =>
        match fk.referred_table with
        | some rt => if rt ≠ "" ∧ rt ∈ missing then addDep acc rt else acc
        | none => acc) acc).Nodup := by
    intro fks
    induction fks with
    | nil => intro acc h; exact h
    | cons fk fks ih =>
      intro acc h
      simp only [List.foldl_cons]
      cases hrt : fk.referred_table with
      | none => exact ih acc h
      | some rt =>
        by_cases hc : rt ≠ "" ∧ rt ∈ missing
        · simp only [if_pos hc]
          exact ih _ (addDep_nodup h)
        · simp only [if_neg hc]
          exact ih acc h
  exact key _ [] List.nodup_nil

theorem restrictedDeps_subset_missing (c : SchemaCorrector)
    (missing : List String) (t : String) :
    ∀ u ∈ restrictedDeps c missing t, u ∈ missing := by
  unfold restrictedDeps
  have key : ∀ (fks : List FKInfo) (acc : List String),
      (∀ u ∈ acc, u ∈ missing) →
      ∀ u ∈ (fks.foldl (fun acc fk =>
        match fk.referred_table with
        | some rt => if rt ≠ "" ∧ rt ∈ missing then addDep acc rt else acc
        | none => acc) acc), u ∈ missing := by
    intro fks
    induction fks with
    | nil => intro acc h; exact h
    | cons fk fks ih =>
      intro acc h
      simp only [List.foldl_cons]
      cases hrt : fk.referred_table with
      | none => exact ih acc h
      | some rt =>
        by_cases hc : rt ≠ "" ∧ rt ∈ missing
        · simp only [if_pos hc]
          refine ih _ ?_
          intro u hu
          rcases addDep_mem_cases hu with h' | h'
          · exact h u h'
          · exact h' ▸ hc.2
        · simp only [if_neg hc]
          exact ih acc h
  exact key _ [] (by simp)

theorem transGen_fkEdge_mem {c : SchemaCorrector} {missing : List String}
    {a b : String} (h : Relation.TransGen (fkEdge c missing) a b) :
    a ∈ missing := by
  induction h with
  | single hab => exact hab.1
  | tail _ _ ih => exact ih

theorem kahnInv_init (c : SchemaCorrector) (missing : List String)
    (hnd : missing.Nodup) :
    KahnInv c missing (restrictedDeps c missing)
      ((missing.filter
        (fun t => restrictedDeps c missing t = [])).reverse) [] := by
  constructor
  · exact fun v => restrictedDeps_nodup c missing v
  · exact fun v x hx => hx
  · exact fun t _ u hu => Or.inl hu
  · intro t ht
    rw [List.mem_reverse, List.mem_filter] at ht
    refine ⟨ht.1, by simpa using ht.2, by simp⟩
  · rw [List.nodup_reverse]
    exact hnd.filter _
  · intro t ht; simp at ht
  · exact List.nodup_nil
  · intro u hu; simp at hu
  · intro t ht hempty
    refine Or.inr ?_
    rw [List.mem_reverse, List.mem_filter]
    exact ⟨ht, by simpa using hempty⟩
  · intro i hi; simp at hi

theorem kahnInv_final_cycle (c : SchemaCorrector) (missing : List String)
    (deps : String → List String) (out : List String)
    (hinv : KahnInv c missing deps [] out) (hnd : missing.Nodup)
    (hlen : out.length ≠ missing.length) : HasFkCycle c missing := by
  classical
  have hS : ∀ t, t ∈ missing.filter (fun t => t ∉ out) ↔
      (t ∈ missing ∧ t ∉ out) := by
    intro t
    rw [List.mem_filter]
    simp
  have hSne : missing.filter (fun t => t ∉ out) ≠ [] := by
    intro hnil
    have hsub : ∀ t ∈ missing, t ∈ out := by
      intro t ht
      by_contra hto
      have : t ∈ missing.filter (fun t => t ∉ out) := (hS t).mpr ⟨ht, hto⟩
      rw [hnil] at this
      simp at this
    have h1 : missing.length ≤ out.length :=
      nodup_length_le_of_subset hnd hsub
    have h2 : out.length ≤ missing.length :=
      nodup_length_le_of_subset hinv.outNodup hinv.outMem
    exact hlen (Nat.le_antisymm h2 h1)
  have hstep : ∀ t ∈ missing.filter (fun t => t ∉ out),
      (deps t).headD "" ∈ missing.filter (fun t => t ∉ out) ∧
      fkEdge c missing t ((deps t).headD "") := by
    intro t ht
    obtain ⟨htm, hto⟩ := (hS t).mp ht
    have hne : deps t ≠ [] := by
      intro hnil
      rcases hinv.emptyIn t htm hnil with h | h
      · exact hto h
      · simp at h
    have hu : (deps t).headD "" ∈ deps t := headD_mem_of_ne_nil hne
    have hurd : (deps t).headD "" ∈ restrictedDeps c missing t :=
      hinv.depsSub t hu
    have hum : (deps t).headD "" ∈ missing :=
      restrictedDeps_subset_missing c missing t _ hurd
    have huo : (deps t).headD "" ∉ out := by
      intro hc
      exact hinv.outClean _ hc t htm hu
    exact ⟨(hS _).mpr ⟨hum, huo⟩, htm, hurd⟩
  exact exists_transGen_self (missing.filter (fun t => t ∉ out))
    (fun t => (deps t).headD "") (fkEdge c missing) hSne hstep

theorem topo_block_cycle (c : SchemaCorrector) (missing out : List String)
    (htopo : ∀ i (h : i < out.length),
      ∀ u ∈ restrictedDeps c missing (out.get ⟨i, h⟩), u ∈ out.take i) :
    ∀ a b, Relation.TransGen (fkEdge c missing) a b → a ∈ out →
      b ∈ out ∧ List.indexOf b out < List.indexOf a out := by
  have base : ∀ a b, fkEdge c missing a b → a ∈ out →
      b ∈ out ∧ List.indexOf b out < List.indexOf a out := by
    intro a b hab ha
    have hi : List.indexOf a out < out.length :=
      List.indexOf_lt_length.mpr ha
    have hget : out.get ⟨List.indexOf a out, hi⟩ = a := by
      simp only [List.get_eq_getElem]
      exact List.getElem_indexOf hi
    have hb : b ∈ out.take (List.indexOf a out) := by
      apply htopo _ hi
      rw [hget]
      exact hab.2
    exact ⟨List.mem_of_mem_take hb, indexOf_lt_of_mem_take out _ hb⟩
  intro a b h
  induction h with
  | single hab => exact base a _ hab
  | tail _ hbc ih =>
    intro ha
    obtain ⟨hbmem, hlt⟩ := ih ha
    obtain ⟨hcmem, hlt2⟩ := base _ _ hbc hbmem
    exact ⟨hcmem, Nat.lt_trans hlt2 hlt⟩

theorem nodup_subset_length_eq_perm {l₁ l₂ : List String} (h₁ : l₁.Nodup)
    (hsub : l₁ ⊆ l₂) (hlen : l₁.length = l₂.length) : l₁.Perm l₂ := by
  obtain ⟨l, hperm, hsubl⟩ := List.Nodup.subperm h₁ hsub
  have hl : l.length = l₂.length := by rw [hperm.length_eq, hlen]
  rw [hsubl.eq_of_length hl] at hperm
  exact hperm.symm

theorem kahnMeasure_init_lt (c : SchemaCorrector) (missing : List String) :
    kahnMeasure missing
      ((missing.filter
        (fun t => restrictedDeps c missing t = [])).reverse) [] <
      2 * missing.length + 1 := by
  unfold kahnMeasure
  have h1 : (missing.toFinset \ (([] : List String).toFinset ∪
      ((missing.filter
        (fun t => restrictedDeps c missing t = [])).reverse).toFinset)).card
      ≤ missing.length := by
    calc _ ≤ missing.toFinset.card :=
          Finset.card_le_card Finset.sdiff_subset
      _ ≤ missing.length := List.toFinset_card_le missing
  have h2 : ((missing.filter
      (fun t => restrictedDeps c missing t = [])).reverse).length ≤
      missing.length := by
    rw [List.length_reverse]
    exact List.length_filter_le _ missing
  omega

/-- Unfolding equation of `sort_missing_tables_by_fk`. -/
theorem sort_missing_tables_by_fk_eq (c : SchemaCorrector)
    (missing : List String) :
    c.sort_missing_tables_by_fk missing =
      (if (kahnLoop missing (2 * missing.length + 1)
            (restrictedDeps c missing)
            ((missing.filter
              (fun t => restrictedDeps c missing t = [])).reverse)
            []).1.length ≠ missing.length
        then (missing, true)
        else ((kahnLoop missing (2 * missing.length + 1)
            (restrictedDeps c missing)
            ((missing.filter
              (fun t => restrictedDeps c missing t = [])).reverse)
            []).1, false)) := rfl

/-- C3: if the FK dependency graph restricted to the missing set has a
cycle, the orderer (a total function, hence terminating) returns exactly
the original input list and sets the warning flag. -/
theorem C3_sort_cycle_returns_input (c : SchemaCorrector)
    (missing : List String) (hnd : missing.Nodup)
    (hcyc : HasFkCycle c missing) :
    c.sort_missing_tables_by_fk missing = (missing, true) := by
  rw [sort_missing_tables_by_fk_eq]
  by_cases hlen : (kahnLoop missing (2 * missing.length + 1)
      (restrictedDeps c missing)
      ((missing.filter
        (fun t => restrictedDeps c missing t = [])).reverse)
      []).1.length ≠ missing.length
  · rw [if_pos hlen]
  · exfalso
    push_neg at hlen
    have hinit := kahnInv_init c missing hnd
    have hfin := kahnLoop_inv c missing (2 * missing.length + 1)
      (restrictedDeps c missing)
      ((missing.filter
        (fun t => restrictedDeps c missing t = [])).reverse) [] hinit
    have hperm := nodup_subset_length_eq_perm hfin.outNodup
      (fun t ht => hfin.outMem t ht) hlen
    obtain ⟨t, htrans⟩ := hcyc
    have htm : t ∈ missing := transGen_fkEdge_mem htrans
    have htout : t ∈ (kahnLoop missing (2 * missing.length + 1)
        (restrictedDeps c missing)
        ((missing.filter
          (fun t => restrictedDeps c missing t = [])).reverse) []).1 :=
      hperm.mem_iff.mpr htm
    obtain ⟨_, hlt⟩ := topo_block_cycle c missing _ hfin.topo t t htrans htout
    exact Nat.lt_irrefl _ hlt

/-- C4: if the FK dependency graph restricted to the missing set is
acyclic, the orderer returns (without the cycle warning) a permutation of
the input in which every restricted FK dependency of a table appears
strictly before that table. -/
theorem C4_sort_acyclic_topological (c : SchemaCorrector)
    (missing : List String) (hnd : missing.Nodup)
    (hacyc : ¬ HasFkCycle c missing) :
    (c.sort_missing_tables_by_fk missing).2 = false ∧
    (c.sort_missing_tables_by_fk missing).1.Perm missing ∧
    ∀ i (h : i < (c.sort_missing_tables_by_fk missing).1.length),
      ∀ u ∈ restrictedDeps c missing
        ((c.sort_missing_tables_by_fk missing).1.get ⟨i, h⟩),
      u ∈ (c.sort_missing_tables_by_fk missing).1.take i := by
  have hinit := kahnInv_init c missing hnd
  have hfin := kahnLoop_inv c missing (2 * missing.length + 1)
    (restrictedDeps c missing)
    ((missing.filter
      (fun t => restrictedDeps c missing t = [])).reverse) [] hinit
  have hnil : (kahnLoop missing (2 * missing.length + 1)
      (restrictedDeps c missing)
      ((missing.filter
        (fun t => restrictedDeps c missing t = [])).reverse) []).2.2 = [] :=
    kahnLoop_ready_nil missing _ _ _ [] hinit.depsNodup
      (kahnMeasure_init_lt c missing)
  have hfin' := hfin
  rw [hnil] at hfin'
  have hlen : (kahnLoop missing (2 * missing.length + 1)
      (restrictedDeps c missing)
      ((missing.filter
        (fun t => restrictedDeps c missing t = [])).reverse)
      []).1.length = missing.length := by
    by_contra hne
    exact hacyc (kahnInv_final_cycle c missing _ _ hfin' hnd hne)
  have hsort : c.sort_missing_tables_by_fk missing =
      ((kahnLoop missing (2 * missing.length + 1)
        (restrictedDeps c missing)
        ((missing.filter
          (fun t => restrictedDeps c missing t = [])).reverse)
        []).1, false) := by
    rw [sort_missing_tables_by_fk_eq, if_neg (by
      push_neg
      exact hlen)]
  rw [hsort]
  refine ⟨rfl, ?_, ?_⟩
  · exact nodup_subset_length_eq_perm hfin.outNodup
      (fun t ht => hfin.outMem t ht) hlen
  · exact hfin.topo

/-- Witness for C3: the two-table cycle fixture `corrCyc` satisfies the
hypotheses and the orderer returns the original input with the warning. -/
theorem C3_witness :
    (["a", "b"] : List String).Nodup ∧ HasFkCycle corrCyc ["a", "b"] ∧
    corrCyc.sort_missing_tables_by_fk ["a", "b"] = (["a", "b"], true) := by
  have hnd : (["a", "b"] : List String).Nodup := by decide
  have h1 : fkEdge corrCyc ["a", "b"] "a" "b" := by
    constructor
    · decide
    · decide
  have h2 : fkEdge corrCyc ["a", "b"] "b" "a" := by
    constructor
    · decide
    · decide
  have hcyc : HasFkCycle corrCyc ["a", "b"] :=
    ⟨"a", Relation.TransGen.head h1 (Relation.TransGen.single h2)⟩
  exact ⟨hnd, hcyc, C3_sort_cycle_returns_input corrCyc ["a", "b"] hnd hcyc⟩

/-- Witness for C4: the acyclic fixture `corrAcy` satisfies the hypotheses
and the orderer emits `parent` before `child` without a warning. -/
theorem C4_witness :
    (["child", "parent"] : List String).Nodup ∧
    ¬ HasFkCycle corrAcy ["child", "parent"] ∧
    (corrAcy.sort_missing_tables_by_fk ["child", "parent"]).2 = false ∧
    (corrAcy.sort_missing_tables_by_fk ["child", "parent"]).1.Perm
      ["child", "parent"] := by
  have hnd : (["child", "parent"] : List String).Nodup := by decide
  have hedge : ∀ a b : String, fkEdge corrAcy ["child", "parent"] a b →
      a = "child" ∧ b = "parent" := by
    intro a b hab
    obtain ⟨ha, hb⟩ := hab
    rcases List.mem_cons.mp ha with h | h
    · subst h
      refine ⟨rfl, ?_⟩
      have hr : restrictedDeps corrAcy ["child", "parent"] "child" =
          ["parent"] := by decide
      rw [hr] at hb
      simpa using hb
    · have h' : a = "parent" := by simpa using h
      subst h'
      have hr : restrictedDeps corrAcy ["child", "parent"] "parent" =
          [] := by decide
      rw [hr] at hb
      simp at hb
  have hacyc : ¬ HasFkCycle corrAcy ["child", "parent"] := by
    rintro ⟨t, htrans⟩
    have key : ∀ x y : String,
        Relation.TransGen (fkEdge corrAcy ["child", "parent"]) x y →
        x = "child" ∧ y = "parent" := by
      intro x y h
      induction h with
      | single h => exact hedge _ _ h
      | tail hprev hstep ih =>
        exfalso
        have hx1 := (hedge _ _ hstep).1
        rw [ih.2] at hx1
        exact absurd hx1 (by decide)
    obtain ⟨h1, h2⟩ := key t t htrans
    rw [h1] at h2
    exact absurd h2 (by decide)
  obtain ⟨hwarn, hperm, _⟩ :=
    C4_sort_acyclic_topological corrAcy ["child", "parent"] hnd hacyc
  exact ⟨hnd, hacyc, hwarn, hperm⟩

/-! ## Structure of the planned operations -/

theorem diff_eq (c : SchemaCorrector) :
    c.diff =
      (SchemaCorrector.extraTables c).map (fun t =>
        (⟨"report", "-- no-op",
          "EXTRA: table exists only in target: " ++ t⟩ : Operation)) ++
      (SchemaCorrector.orderedMissingTables c).flatMap (fun t =>
        c.plan_create_table t c.is_sqlite ++ c.plan_add_missing_indexes t) ++
      (SchemaCorrector.commonTables c).flatMap (fun t =>
        c.report_extra_columns t ++ c.plan_add_missing_columns t) ++
      (SchemaCorrector.commonTables c).flatMap (fun t =>
        c.plan_add_missing_indexes t) ++
      ((if c.is_sqlite then []
        else (SchemaCorrector.orderedMissingTables c).flatMap (fun t =>
          c.plan_add_foreign_keys_for_new_table t)) ++
        (SchemaCorrector.commonTables c).flatMap (fun t =>
          c.plan_add_missing_foreign_keys t)) ++
      (SchemaCorrector.commonTables c).flatMap (fun t =>
        c.report_risky_differences t) := rfl

theorem mem_plan_create_table {c : SchemaCorrector} {t : String} {b : Bool}
    {op : Operation} (h : op ∈ c.plan_create_table t b) :
    op = ⟨"create_table", SchemaCorrector.createTableSQL c t b,
      "Create table " ++ t⟩ := by
  simpa [SchemaCorrector.plan_create_table] using h

theorem mem_plan_add_missing_columns {c : SchemaCorrector} {t : String}
    {op : Operation} (h : op ∈ c.plan_add_missing_columns t) :
    op.kind = "add_column" ∧ ∃ col meta,
      (col, meta) ∈ colDict (c.source.columns t) ∧
      (dictLookup (colDict (c.target.columns t)) col).isSome = false ∧
      op.comment = "Add column " ++ t ++ "." ++ col := by
  unfold SchemaCorrector.plan_add_missing_columns at h
  obtain ⟨p, hp, heq⟩ := List.mem_filterMap.mp h
  by_cases hl : (dictLookup (colDict (c.target.columns t)) p.1).isSome
  · rw [if_pos hl] at heq
    simp at heq
  · rw [if_neg hl] at heq
    simp only [Option.some.injEq] at heq
    refine ⟨by rw [← heq], p.1, p.2, by simpa using hp,
      by rw [← Bool.not_eq_true]; exact hl, by rw [← heq]⟩

theorem mem_refIndexOps {c : SchemaCorrector} {t : String} {op : Operation}
    (h : op ∈ SchemaCorrector.refIndexOps c t) :
    ∃ idx ∈ c.source.reflected_indexes t, ∃ nm, idx.name = some nm ∧
      nm ≠ "" ∧ nm ∉ c.tgtIndexNames t ∧
      op = ⟨"create_index", SchemaCorrector.createIndexSQL c t idx,
        "Create index " ++ nm⟩ := by
  unfold SchemaCorrector.refIndexOps at h
  obtain ⟨idx, hidx, heq⟩ := List.mem_filterMap.mp h
  cases hn : idx.name with
  | none => rw [hn] at heq; simp at heq
  | some nm =>
    rw [hn] at heq
    dsimp only at heq
    by_cases hc : nm ≠ "" ∧ nm ∉ c.tgtIndexNames t
    · rw [if_pos hc] at heq
      simp only [Option.some.injEq] at heq
      exact ⟨idx, hidx, nm, hn, hc.1, hc.2, heq.symm⟩
    · rw [if_neg hc] at heq
      simp at heq

theorem mem_inspIndexOps {c : SchemaCorrector} {t : String} {op : Operation}
    (h : op ∈ SchemaCorrector.inspIndexOps c t) :
    ∃ info ∈ c.source.indexes t, ∃ nm, info.name = some nm ∧
      nm ≠ "" ∧ info.column_names ≠ [] ∧ nm ∉ c.tgtIndexNames t ∧
      nm ∉ SchemaCorrector.plannedIndexNames c t ∧
      op = ⟨"create_index",
        SchemaCorrector.handIndexSQL c t nm info.column_names info.unique,
        "Create index " ++ nm⟩ := by
  unfold SchemaCorrector.inspIndexOps at h
  obtain ⟨info, hinfo, heq⟩ := List.mem_filterMap.mp h
  cases hn : info.name with
  | none => rw [hn] at heq; simp at heq
  | some nm =>
    rw [hn] at heq
    dsimp only at heq
    by_cases hc : nm ≠ "" ∧ info.column_names ≠ [] ∧
        nm ∉ c.tgtIndexNames t ∧
        nm ∉ SchemaCorrector.plannedIndexNames c t
    · rw [if_pos hc] at heq
      simp only [Option.some.injEq] at heq
      exact ⟨info, hinfo, nm, hn, hc.1, hc.2.1, hc.2.2.1, hc.2.2.2,
        heq.symm⟩
    · rw [if_neg hc] at heq
      simp at heq

theorem plan_add_missing_indexes_kind {c : SchemaCorrector} {t : String}
    {op : Operation} (h : op ∈ c.plan_add_missing_indexes t) :
    op.kind = "create_index" := by
  unfold SchemaCorrector.plan_add_missing_indexes at h
  rcases List.mem_append.mp h with h | h
  · obtain ⟨_, _, _, _, _, _, heq⟩ := mem_refIndexOps h
    rw [heq]
  · obtain ⟨_, _, _, _, _, _, _, _, heq⟩ := mem_inspIndexOps h
    rw [heq]

theorem mem_report_extra_columns {c : SchemaCorrector} {t : String}
    {op : Operation} (h : op ∈ c.report_extra_columns t) :
    op.kind = "report" ∧ ∃ col, op.comment =
      "EXTRA: column exists only in target: " ++ t ++ "." ++ col := by
  unfold SchemaCorrector.report_extra_columns at h
  obtain ⟨col, _, heq⟩ := List.mem_map.mp h
  exact ⟨by rw [← heq], col, by rw [← heq]⟩

theorem mem_report_risky_differences {c : SchemaCorrector} {t : String}
    {op : Operation} (h : op ∈ c.report_risky_differences t) :
    op.kind = "report" := by
  unfold SchemaCorrector.report_risky_differences at h
  obtain ⟨p, _, hmem⟩ := List.mem_flatMap.mp h
  rcases hl : dictLookup (colDict (c.target.columns t)) p.1 with _ | tgtc
  · rw [hl] at hmem
    simp at hmem
  · rw [hl] at hmem
    rcases List.mem_append.mp hmem with h' | h'
    · by_cases hc : p.2.type_sql ≠ tgtc.type_sql
      · rw [if_pos hc] at h'
        simp only [List.mem_singleton] at h'
        rw [h']
      · rw [if_neg hc] at h'
        simp at h'
    · by_cases hc : p.2.nullable = false ∧ tgtc.nullable = true
      · rw [if_pos hc] at h'
        simp only [List.mem_singleton] at h'
        rw [h']
      · rw [if_neg hc] at h'
        simp at h'

theorem build_fk_operation_shape {c : SchemaCorrector} {t : String}
    {fk : FKInfo} {op : Operation}
    (h : c.build_fk_operation t fk = some op) :
    op.kind = "add_foreign_key" ∧
    ∃ a rest, op.sql = "ALTER TABLE " ++ a ++ " ADD CONSTRAINT " ++ rest := by
  unfold SchemaCorrector.build_fk_operation at h
  by_cases h1 : truthyStr fk.referred_table = false
  · rw [if_pos h1] at h
    simp at h
  · rw [if_neg h1] at h
    by_cases h2 : fk.constrained_columns = [] ∨ fk.referred_columns = []
    · rw [if_pos h2] at h
      simp at h
    · rw [if_neg h2] at h
      simp only [Option.some.injEq] at h
      refine ⟨by rw [← h], c.qt t,
        c.q (match orStr fk.name (some (c.make_fk_name t fk)) with
          | some s => s
          | none => c.make_fk_name t fk) ++ " FOREIGN KEY (" ++
          ", ".intercalate (fk.constrained_columns.map c.q) ++
          ") REFERENCES " ++
          (if truthyStr (orStr fk.referred_schema c.schema) = true then
            c.q ((orStr fk.referred_schema c.schema).getD "") ++ "." ++
              c.q (fk.referred_table.getD "")
          else c.q (fk.referred_table.getD "")) ++ " (" ++
          ", ".intercalate (fk.referred_columns.map c.q) ++ ")" ++
          (if truthyStr fk.ondelete = true then
            " ON DELETE " ++ fk.ondelete.getD "" else "") ++
          (if truthyStr fk.onupdate = true then
            " ON UPDATE " ++ fk.onupdate.getD "" else "") ++
          (if c.target.dialect = "postgresql" then " NOT VALID" else "") ++
          ";", ?_⟩
      rw [← h]
      simp only [String.append_assoc]

theorem mem_plan_foreign_keys {c : SchemaCorrector} {t : String}
    {src_fks : List FKInfo} {tgt_fks : Option (List FKInfo)}
    {op : Operation} (h : op ∈ c.plan_foreign_keys t src_fks tgt_fks) :
    ∃ fk ∈ src_fks, c.build_fk_operation t fk = some op := by
  unfold SchemaCorrector.plan_foreign_keys at h
  obtain ⟨fk, hfk, heq⟩ := List.mem_filterMap.mp h
  by_cases hc : tgt_fks.isSome ∧ c.fk_signature fk ∈
      (tgt_fks.getD []).map c.fk_signature
  · rw [if_pos hc] at heq
    simp at heq
  · rw [if_neg hc] at heq
    exact ⟨fk, hfk, heq⟩

theorem plan_add_missing_fk_sqlite {c : SchemaCorrector} {t : String}
    (hsql : c.is_sqlite = true) :
    (c.missingFkSigs t ≠ [] →
      c.plan_add_missing_foreign_keys t =
        [⟨"report", "-- no-op",
          SchemaCorrector.fkReportComment t (c.missingFkSigs t).length⟩]) ∧
    (c.missingFkSigs t = [] → c.plan_add_missing_foreign_keys t = []) := by
  unfold SchemaCorrector.plan_add_missing_foreign_keys
  rw [if_pos hsql]
  constructor
  · intro hne
    rw [if_neg (by simpa [List.isEmpty_iff] using hne)]
  · intro hnil
    rw [if_pos (by simpa [List.isEmpty_iff] using hnil)]

theorem create_table_op_mem_diff {c : SchemaCorrector} {t : String}
    (h : t ∈ SchemaCorrector.orderedMissingTables c) :
    (⟨"create_table", SchemaCorrector.createTableSQL c t c.is_sqlite,
      "Create table " ++ t⟩ : Operation) ∈ c.diff := by
  rw [diff_eq]
  have hmem : (⟨"create_table",
      SchemaCorrector.createTableSQL c t c.is_sqlite,
      "Create table " ++ t⟩ : Operation) ∈
      (SchemaCorrector.orderedMissingTables c).flatMap (fun t =>
        c.plan_create_table t c.is_sqlite ++
          c.plan_add_missing_indexes t) := by
    rw [List.mem_flatMap]
    exact ⟨t, h, List.mem_append_left _
      (by simp [SchemaCorrector.plan_create_table])⟩
  exact List.mem_append_left _ (List.mem_append_left _
    (List.mem_append_left _ (List.mem_append_left _
      (List.mem_append_right _ hmem))))

theorem fk_ops_mem_diff {c : SchemaCorrector} {op : Operation}
    (h : op ∈ (if c.is_sqlite then []
        else (SchemaCorrector.orderedMissingTables c).flatMap (fun t =>
          c.plan_add_foreign_keys_for_new_table t)) ++
      (SchemaCorrector.commonTables c).flatMap (fun t =>
        c.plan_add_missing_foreign_keys t)) :
    op ∈ c.diff := by
  rw [diff_eq]
  exact List.mem_append_left _ (List.mem_append_right _ h)

/-- C2: on SQLite, a common table with missing FK signatures yields exactly
one report Operation counting them (and that report is in the plan), no
Operation at all when no signature is missing, and `diff` never plans an
add_foreign_key Operation. -/
theorem C2_sqlite_single_fk_report (c : SchemaCorrector) (t : String)
    (hsql : c.is_sqlite = true)
    (hct : t ∈ SchemaCorrector.commonTables c) :
    (c.missingFkSigs t ≠ [] →
      c.plan_add_missing_foreign_keys t =
        [⟨"report", "-- no-op",
          SchemaCorrector.fkReportComment t (c.missingFkSigs t).length⟩] ∧
      (⟨"report", "-- no-op",
        SchemaCorrector.fkReportComment t
          (c.missingFkSigs t).length⟩ : Operation) ∈ c.diff) ∧
    (c.missingFkSigs t = [] → c.plan_add_missing_foreign_keys t = []) ∧
    (∀ op ∈ c.diff, op.kind ≠ "add_foreign_key") := by
  obtain ⟨hne, hnil⟩ := plan_add_missing_fk_sqlite (c := c) (t := t) hsql
  refine ⟨?_, hnil, ?_⟩
  · intro hmiss
    refine ⟨hne hmiss, ?_⟩
    apply fk_ops_mem_diff
    apply List.mem_append_right
    rw [List.mem_flatMap]
    refine ⟨t, hct, ?_⟩
    rw [hne hmiss]
    simp
  · intro op hop
    rw [diff_eq] at hop
    rcases List.mem_append.mp hop with hop | hop
    · rcases List.mem_append.mp hop with hop | hop
      · rcases List.mem_append.mp hop with hop | hop
        · rcases List.mem_append.mp hop with hop | hop
          · rcases List.mem_append.mp hop with hop | hop
            · obtain ⟨_, _, heq⟩ := List.mem_map.mp hop
              rw [← heq]
              show ("report" : String) ≠ "add_foreign_key"
              decide
            · obtain ⟨u, _, hmem⟩ := List.mem_flatMap.mp hop
              rcases List.mem_append.mp hmem with hmem | hmem
              · rw [mem_plan_create_table hmem]
                show ("create_table" : String) ≠ "add_foreign_key"
                decide
              · rw [plan_add_missing_indexes_kind hmem]
                decide
          · obtain ⟨u, _, hmem⟩ := List.mem_flatMap.mp hop
            rcases List.mem_append.mp hmem with hmem | hmem
            · rw [(mem_report_extra_columns hmem).1]
              decide
            · rw [(mem_plan_add_missing_columns hmem).1]
              decide
        · obtain ⟨u, _, hmem⟩ := List.mem_flatMap.mp hop
          rw [plan_add_missing_indexes_kind hmem]
          decide
      · rcases List.mem_append.mp hop with hop | hop
        · rw [if_pos hsql] at hop
          simp at hop
        · obtain ⟨u, _, hmem⟩ := List.mem_flatMap.mp hop
          obtain ⟨hne', hnil'⟩ :=
            plan_add_missing_fk_sqlite (c := c) (t := u) hsql
          by_cases hm : c.missingFkSigs u = []
          · rw [hnil' hm] at hmem
            simp at hmem
          · rw [hne' hm] at hmem
            simp only [List.mem_singleton] at hmem
            rw [hmem]
            show ("report" : String) ≠ "add_foreign_key"
            decide
    · obtain ⟨u, _, hmem⟩ := List.mem_flatMap.mp hop
      rw [mem_report_risky_differences hmem]
      decide

/-- Witness for C2: on the fixture `corrC2` the common table `a` has one
missing FK signature and the planner yields exactly the single counting
report. -/
theorem C2_witness :
    corrC2.is_sqlite = true ∧
    "a" ∈ SchemaCorrector.commonTables corrC2 ∧
    corrC2.missingFkSigs "a" ≠ [] ∧
    corrC2.plan_add_missing_foreign_keys "a" =
      [⟨"report", "-- no-op",
        SchemaCorrector.fkReportComment "a" 1⟩] := by
  have h1 : corrC2.is_sqlite = true := rfl
  have h2 : "a" ∈ SchemaCorrector.commonTables corrC2 := by decide
  have h3 : corrC2.missingFkSigs "a" ≠ [] := by decide
  obtain ⟨hA, _, _⟩ := C2_sqlite_single_fk_report corrC2 "a" h1 h2
  obtain ⟨hplan, _⟩ := hA h3
  have hlen : (corrC2.missingFkSigs "a").length = 1 := by decide
  rw [hlen] at hplan
  exact ⟨h1, h2, h3, hplan⟩

/-- C1 (counterexample to the claim as stated): on the SQLite fixture
`corrC1`, the create_table Operation for the missing table `orders` is
rendered WITH its foreign key constraint inline — its SQL equals the
FK-including rendering, and no create_table Operation of the plan equals
the FK-excluding rendering the claim demands. -/
theorem C1_counterexample :
    corrC1.is_sqlite = true ∧
    (⟨"create_table",
      SchemaCorrector.createTableSQL corrC1 "orders" true,
      "Create table orders"⟩ : Operation) ∈ corrC1.diff ∧
    SchemaCorrector.createTableSQL corrC1 "orders" true ≠
      SchemaCorrector.createTableSQL corrC1 "orders" false ∧
    (∀ op ∈ corrC1.diff, op.kind = "create_table" →
      op.sql ≠ SchemaCorrector.createTableSQL corrC1 "orders" false) := by
  refine ⟨rfl, ?_, by decide, ?_⟩
  · decide
  · decide

/-- C1 amended: the create_table Operation for a missing table is rendered
with foreign keys included inline exactly when the target dialect is
SQLite (`include_foreign_keys = is_sqlite`); on other dialects the CREATE
excludes the FKs and each renderable source FK of the new table is
deferred to an add_foreign_key Operation elsewhere in the plan. -/
theorem C1_create_table_fk_policy (c : SchemaCorrector) (t : String)
    (h : t ∈ SchemaCorrector.orderedMissingTables c) :
    ((⟨"create_table", SchemaCorrector.createTableSQL c t c.is_sqlite,
      "Create table " ++ t⟩ : Operation) ∈ c.diff) ∧
    (c.is_sqlite = false → ∀ fk ∈ c.source.fks t, ∀ op,
      c.build_fk_operation t fk = some op →
        op ∈ c.diff ∧ op.kind = "add_foreign_key") := by
  refine ⟨create_table_op_mem_diff h, ?_⟩
  intro hns fk hfk op hbuild
  have hmem : op ∈ c.plan_add_foreign_keys_for_new_table t := by
    unfold SchemaCorrector.plan_add_foreign_keys_for_new_table
    rw [if_neg (by simp [hns])]
    unfold SchemaCorrector.plan_foreign_keys
    rw [List.mem_filterMap]
    refine ⟨fk, hfk, ?_⟩
    rw [if_neg (by simp)]
    exact hbuild
  constructor
  · apply fk_ops_mem_diff
    apply List.mem_append_left
    rw [if_neg (by simp [hns])]
    rw [List.mem_flatMap]
    exact ⟨t, h, hmem⟩
  · exact (build_fk_operation_shape hbuild).1

/-- Witness for C1 (amended): on the fixture `corrC1` the missing table
`orders` gets a create_table Operation in the plan whose DDL is the
SQLite (FK-inline) rendering. -/
theorem C1_witness :
    "orders" ∈ SchemaCorrector.orderedMissingTables corrC1 ∧
    (⟨"create_table",
      SchemaCorrector.createTableSQL corrC1 "orders" corrC1.is_sqlite,
      "Create table orders"⟩ : Operation) ∈ corrC1.diff := by
  have h : "orders" ∈ SchemaCorrector.orderedMissingTables corrC1 := by
    decide
  exact ⟨h, (C1_create_table_fk_policy corrC1 "orders" h).1⟩

/-! ## Membership through sorting and dedup -/

theorem mem_insertSorted {x y : String} : ∀ {l : List String},
    x ∈ insertSorted y l ↔ x = y ∨ x ∈ l := by
  intro l
  induction l with
  | nil => simp [insertSorted]
  | cons z zs ih =>
    unfold insertSorted
    by_cases h : strLe y z
    · rw [if_pos h]
      simp [List.mem_cons]
    · rw [if_neg h]
      simp only [List.mem_cons, ih]
      tauto

theorem mem_sortStrings {x : String} : ∀ {l : List String},
    x ∈ sortStrings l ↔ x ∈ l := by
  intro l
  induction l with
  | nil => simp [sortStrings]
  | cons y ys ih =>
    show x ∈ insertSorted y (sortStrings ys) ↔ _
    rw [mem_insertSorted, ih]
    simp [List.mem_cons]

theorem mem_dedupLast {A : Type} [DecidableEq A] {x : A} :
    ∀ {l : List A}, x ∈ dedupLast l ↔ x ∈ l := by
  intro l
  induction l with
  | nil => simp [dedupLast]
  | cons y ys ih =>
    unfold dedupLast
    by_cases h : y ∈ ys
    · rw [if_pos h, ih]
      constructor
      · exact fun hx => List.mem_cons_of_mem y hx
      · intro hx
        rcases List.mem_cons.mp hx with hx | hx
        · exact hx ▸ h
        · exact hx
    · rw [if_neg h]
      simp [List.mem_cons, ih]

theorem nodup_dedupLast {A : Type} [DecidableEq A] :
    ∀ (l : List A), (dedupLast l).Nodup := by
  intro l
  induction l with
  | nil => simp [dedupLast]
  | cons y ys ih =>
    unfold dedupLast
    by_cases h : y ∈ ys
    · rw [if_pos h]; exact ih
    · rw [if_neg h]
      rw [List.nodup_cons]
      exact ⟨fun hc => h (mem_dedupLast.mp hc), ih⟩

theorem mem_sortedSetDiff {x : String} {a b : List String} :
    x ∈ sortedSetDiff a b ↔ x ∈ a ∧ x ∉ b := by
  unfold sortedSetDiff
  rw [mem_sortStrings, mem_dedupLast, List.mem_filter]
  simp

theorem mem_sortedSetInter {x : String} {a b : List String} :
    x ∈ sortedSetInter a b ↔ x ∈ a ∧ x ∈ b := by
  unfold sortedSetInter
  rw [mem_sortStrings, mem_dedupLast, List.mem_filter]
  simp

theorem dictLookup_eq_some_mem {l : List (String × ColInfo)} {k : String}
    {v : ColInfo} (h : dictLookup l k = some v) : (k, v) ∈ l := by
  induction l with
  | nil => simp [dictLookup] at h
  | cons p rest ih =>
    unfold dictLookup at h
    by_cases hp : p.1 = k
    · rw [if_pos hp] at h
      simp only [Option.some.injEq] at h
      have hkv : (k, v) = p := by rw [← hp, ← h]
      rw [hkv]
      exact List.mem_cons_self p rest
    · rw [if_neg hp] at h
      exact List.mem_cons_of_mem p (ih h)

/-! ## Subset facts about the ordered missing tables -/

theorem kahnLoop_out_subset (missing : List String) : ∀ (fuel : Nat)
    (deps : String → List String) (ready out : List String),
    (∀ v, (deps v).Nodup) → (∀ t ∈ ready, t ∈ missing) →
    (∀ t ∈ out, t ∈ missing) →
    ∀ t ∈ (kahnLoop missing fuel deps ready out).1, t ∈ missing := by
  intro fuel
  induction fuel with
  | zero => intro deps ready out _ _ hout t ht; exact hout t ht
  | succ f ih =>
    intro deps ready out hnd hready hout t ht
    cases ready with
    | nil => exact hout t ht
    | cons n rest =>
      obtain ⟨new, hr, _, hprop⟩ :=
        processDeps_snd_extend n missing deps rest (out ++ [n]) hnd
      refine ih _ _ _ (processDeps_nodup n missing deps rest (out ++ [n])
        hnd) ?_ ?_ t ht
      · intro u hu
        rw [hr] at hu
        rcases List.mem_append.mp hu with hu | hu
        · exact (hprop u hu).1
        · exact hready u (List.mem_cons_of_mem n hu)
      · intro u hu
        rcases List.mem_append.mp hu with hu | hu
        · exact hout u hu
        · have : u = n := by simpa using hu
          exact this ▸ hready n (List.mem_cons_self n rest)

theorem sort_missing_subset (c : SchemaCorrector) (missing : List String) :
    ∀ t ∈ (c.sort_missing_tables_by_fk missing).1, t ∈ missing := by
  rw [sort_missing_tables_by_fk_eq]
  by_cases hlen : (kahnLoop missing (2 * missing.length + 1)
      (restrictedDeps c missing)
      ((missing.filter
        (fun t => restrictedDeps c missing t = [])).reverse)
      []).1.length ≠ missing.length
  · rw [if_pos hlen]
    exact fun t ht => ht
  · rw [if_neg hlen]
    intro t ht
    refine kahnLoop_out_subset missing _ _ _ []
      (fun v => restrictedDeps_nodup c missing v) ?_ (by simp) t ht
    intro u hu
    rw [List.mem_reverse, List.mem_filter] at hu
    exact hu.1

theorem orderedMissing_subset (c : SchemaCorrector) :
    ∀ t ∈ SchemaCorrector.orderedMissingTables c,
      t ∈ SchemaCorrector.missingTables c :=
  sort_missing_subset c (SchemaCorrector.missingTables c)

theorem common_not_missing {c : SchemaCorrector} {t : String}
    (h : t ∈ SchemaCorrector.commonTables c) :
    t ∉ SchemaCorrector.missingTables c := by
  intro hc
  have h1 := mem_sortedSetInter.mp h
  have h2 := mem_sortedSetDiff.mp hc
  exact h2.2 h1.2

/-- Master case analysis of the operations `diff` can plan. -/
theorem diff_mem_cases {c : SchemaCorrector} {op : Operation}
    (h : op ∈ c.diff) :
    op.kind = "report" ∨
    (op.kind = "create_table" ∧
      ∃ u ∈ SchemaCorrector.orderedMissingTables c,
        op = ⟨"create_table", SchemaCorrector.createTableSQL c u c.is_sqlite,
          "Create table " ++ u⟩) ∨
    op.kind = "create_index" ∨
    (op.kind = "add_column" ∧ ∃ u ∈ SchemaCorrector.commonTables c,
      op ∈ c.plan_add_missing_columns u) ∨
    (op.kind = "add_foreign_key" ∧ ∃ u fk,
      c.build_fk_operation u fk = some op) := by
  rw [diff_eq] at h
  rcases List.mem_append.mp h with h | h
  · rcases List.mem_append.mp h with h | h
    · rcases List.mem_append.mp h with h | h
      · rcases List.mem_append.mp h with h | h
        · rcases List.mem_append.mp h with h | h
          · obtain ⟨_, _, heq⟩ := List.mem_map.mp h
            exact Or.inl (by rw [← heq])
          · obtain ⟨u, hu, hmem⟩ := List.mem_flatMap.mp h
            rcases List.mem_append.mp hmem with hmem | hmem
            · exact Or.inr (Or.inl ⟨by
                rw [mem_plan_create_table hmem], u, hu,
                mem_plan_create_table hmem⟩)
            · exact Or.inr (Or.inr (Or.inl
                (plan_add_missing_indexes_kind hmem)))
        · obtain ⟨u, hu, hmem⟩ := List.mem_flatMap.mp h
          rcases List.mem_append.mp hmem with hmem | hmem
          · exact Or.inl (mem_report_extra_columns hmem).1
          · exact Or.inr (Or.inr (Or.inr (Or.inl
              ⟨(mem_plan_add_missing_columns hmem).1, u, hu, hmem⟩)))
      · obtain ⟨u, _, hmem⟩ := List.mem_flatMap.mp h
        exact Or.inr (Or.inr (Or.inl (plan_add_missing_indexes_kind hmem)))
    · rcases List.mem_append.mp h with h | h
      · by_cases hsq : c.is_sqlite
        · rw [if_pos hsq] at h
          simp at h
        · rw [if_neg hsq] at h
          obtain ⟨u, _, hmem⟩ := List.mem_flatMap.mp h
          unfold SchemaCorrector.plan_add_foreign_keys_for_new_table at hmem
          rw [if_neg hsq] at hmem
          obtain ⟨fk, _, hbuild⟩ := mem_plan_foreign_keys hmem
          exact Or.inr (Or.inr (Or.inr (Or.inr
            ⟨(build_fk_operation_shape hbuild).1, u, fk, hbuild⟩)))
      · obtain ⟨u, _, hmem⟩ := List.mem_flatMap.mp h
        unfold SchemaCorrector.plan_add_missing_foreign_keys at hmem
        by_cases hsq : c.is_sqlite
        · rw [if_pos hsq] at hmem
          by_cases hm : (c.missingFkSigs u).isEmpty
          · rw [if_pos hm] at hmem
            simp at hmem
          · rw [if_neg hm] at hmem
            simp only [List.mem_singleton] at hmem
            exact Or.inl (by rw [hmem])
        · rw [if_neg hsq] at hmem
          obtain ⟨fk, _, hbuild⟩ := mem_plan_foreign_keys hmem
          exact Or.inr (Or.inr (Or.inr (Or.inr
            ⟨(build_fk_operation_shape hbuild).1, u, fk, hbuild⟩)))
  · obtain ⟨u, _, hmem⟩ := List.mem_flatMap.mp h
    exact Or.inl (mem_report_risky_differences hmem)

theorem risky_reports_mem_diff {c : SchemaCorrector} {t col : String}
    {sc tc : ColInfo}
    (hct : t ∈ SchemaCorrector.commonTables c)
    (hsrc : (col, sc) ∈ colDict (c.source.columns t))
    (htgt : dictLookup (colDict (c.target.columns t)) col = some tc) :
    (sc.type_sql ≠ tc.type_sql →
      (⟨"report", "-- no-op",
        SchemaCorrector.typeMismatchComment t col sc.type_sql
          tc.type_sql⟩ : Operation) ∈ c.diff) ∧
    (sc.nullable = false ∧ tc.nullable = true →
      (⟨"report", "-- no-op",
        SchemaCorrector.nullableMismatchComment t col⟩ : Operation) ∈
        c.diff) := by
  have hmem : ∀ op : Operation,
      op ∈ ((if sc.type_sql ≠ tc.type_sql then
          [(⟨"report", "-- no-op",
            SchemaCorrector.typeMismatchComment t col sc.type_sql
              tc.type_sql⟩ : Operation)]
        else []) ++
        (if sc.nullable = false ∧ tc.nullable = true then
          [(⟨"report", "-- no-op",
            SchemaCorrector.nullableMismatchComment t col⟩ : Operation)]
        else [])) →
      op ∈ c.diff := by
    intro op hop
    have hrisky : op ∈ c.report_risky_differences t := by
      unfold SchemaCorrector.report_risky_differences
      rw [List.mem_flatMap]
      refine ⟨(col, sc), hsrc, ?_⟩
      dsimp only
      rw [htgt]
      exact hop
    rw [diff_eq]
    apply List.mem_append_right
    rw [List.mem_flatMap]
    exact ⟨t, hct, hrisky⟩
  constructor
  · intro hne
    apply hmem
    apply List.mem_append_left
    rw [if_pos hne]
    simp
  · intro hnul
    apply hmem
    apply List.mem_append_right
    rw [if_pos hnul]
    simp

/-- C5: a column present on both sides whose rendered type differs, or
which is NOT NULL in source but nullable in target, only produces the
corresponding risky report: the plan contains the report, plans no
add_column for that column, no create_table for its (common) table, and
every add_foreign_key Operation is an ADD CONSTRAINT statement (it never
alters a column). -/
theorem C5_risky_divergence_only_report (c : SchemaCorrector)
    (t col : String) (sc tc : ColInfo)
    (hct : t ∈ SchemaCorrector.commonTables c)
    (hsrc : (col, sc) ∈ colDict (c.source.columns t))
    (htgt : dictLookup (colDict (c.target.columns t)) col = some tc) :
    (sc.type_sql ≠ tc.type_sql →
      (⟨"report", "-- no-op",
        SchemaCorrector.typeMismatchComment t col sc.type_sql
          tc.type_sql⟩ : Operation) ∈ c.diff) ∧
    (sc.nullable = false ∧ tc.nullable = true →
      (⟨"report", "-- no-op",
        SchemaCorrector.nullableMismatchComment t col⟩ : Operation) ∈
        c.diff) ∧
    (∀ op ∈ c.plan_add_missing_columns t,
      op.comment ≠ "Add column " ++ t ++ "." ++ col) ∧
    (∀ op ∈ c.diff, op.kind = "create_table" →
      op.comment ≠ "Create table " ++ t) ∧
    (∀ op ∈ c.diff, op.kind = "add_foreign_key" →
      ∃ a rest, op.sql = "ALTER TABLE " ++ a ++ " ADD CONSTRAINT " ++
        rest) := by
  obtain ⟨htype, hnull⟩ := risky_reports_mem_diff hct hsrc htgt
  refine ⟨htype, hnull, ?_, ?_, ?_⟩
  · intro op hop hceq
    obtain ⟨_, col', meta, _, hlook, hcomment⟩ :=
      mem_plan_add_missing_columns hop
    rw [hcomment] at hceq
    have hcol : col' = col := string_append_right_cancel hceq
    rw [hcol, htgt] at hlook
    simp at hlook
  · intro op hop hkind
    rcases diff_mem_cases hop with h | h | h | h | h
    · rw [hkind] at h
      exact absurd h (by decide)
    · obtain ⟨_, u, hu, heq⟩ := h
      have hut : u ≠ t := by
        intro he
        exact common_not_missing hct (he ▸ orderedMissing_subset c u hu)
      rw [heq]
      exact string_append_ne hut
    · rw [hkind] at h
      exact absurd h (by decide)
    · have hk := h.1
      rw [hkind] at hk
      exact absurd hk (by decide)
    · have hk := h.1
      rw [hkind] at hk
      exact absurd hk (by decide)
  · intro op hop hkind
    rcases diff_mem_cases hop with h | h | h | h | h
    · rw [hkind] at h
      exact absurd h (by decide)
    · have hk := h.1
      rw [hkind] at hk
      exact absurd hk (by decide)
    · rw [hkind] at h
      exact absurd h (by decide)
    · have hk := h.1
      rw [hkind] at hk
      exact absurd hk (by decide)
    · obtain ⟨_, u, fk, hbuild⟩ := h
      exact (build_fk_operation_shape hbuild).2

/-- Witness for C5: on the fixture `corrC5` the common column `t.x`
diverges in type and nullability and both risky reports are planned. -/
theorem C5_witness :
    "t" ∈ SchemaCorrector.commonTables corrC5 ∧
    ("x", (⟨"x", "INTEGER", false⟩ : ColInfo)) ∈
      colDict (corrC5.source.columns "t") ∧
    dictLookup (colDict (corrC5.target.columns "t")) "x" =
      some ⟨"x", "TEXT", true⟩ ∧
    (⟨"report", "-- no-op",
      SchemaCorrector.typeMismatchComment "t" "x" "INTEGER" "TEXT"⟩ :
      Operation) ∈ corrC5.diff ∧
    (⟨"report", "-- no-op",
      SchemaCorrector.nullableMismatchComment "t" "x"⟩ : Operation) ∈
      corrC5.diff := by
  have hct : "t" ∈ SchemaCorrector.commonTables corrC5 := by decide
  have hsrc : ("x", (⟨"x", "INTEGER", false⟩ : ColInfo)) ∈
      colDict (corrC5.source.columns "t") := by decide
  have htgt : dictLookup (colDict (corrC5.target.columns "t")) "x" =
      some ⟨"x", "TEXT", true⟩ := by decide
  obtain ⟨h1, h2, _, _, _⟩ :=
    C5_risky_divergence_only_report corrC5 "t" "x" ⟨"x", "INTEGER", false⟩
      ⟨"x", "TEXT", true⟩ hct hsrc htgt
  exact ⟨hct, hsrc, htgt, h1 (by decide), h2 (by decide)⟩

/-! ## Lemmas about `apply` -/

theorem execStatements_all_ok {execOK : String → Bool} :
    ∀ {sqls : List String}, (∀ s ∈ sqls, execOK s = true) →
    (SchemaCorrector.execStatements execOK sqls).2 = none ∧
    (SchemaCorrector.execStatements execOK sqls).1 =
      sqls.map Event.executed := by
  intro sqls
  induction sqls with
  | nil => intro _; exact ⟨rfl, rfl⟩
  | cons s rest ih =>
    intro hok
    obtain ⟨ih1, ih2⟩ := ih (fun u hu => hok u (List.mem_cons_of_mem s hu))
    unfold SchemaCorrector.execStatements
    rw [if_pos (hok s (List.mem_cons_self s rest))]
    exact ⟨ih1, by rw [List.map_cons, ← ih2]⟩

theorem executedSqls_append (a b : List Event) :
    executedSqls (a ++ b) = executedSqls a ++ executedSqls b := by
  unfold executedSqls
  rw [List.filterMap_append]

theorem executedSqls_map_executed (sqls : List String) :
    executedSqls (sqls.map Event.executed) = sqls := by
  unfold executedSqls
  induction sqls with
  | nil => rfl
  | cons s rest ih => simp [List.filterMap_cons, ih]

theorem execLoop_all_ok {execOK : String → Bool} {total : Nat} :
    ∀ (i : Nat) (ops : List Operation),
    (∀ op ∈ ops, op.kind ≠ "report" → execOK op.sql = true) →
    (SchemaCorrector.execLoop execOK total i ops).2 = none ∧
    executedSqls (SchemaCorrector.execLoop execOK total i ops).1 =
      (ops.filter (fun op => op.kind ≠ "report")).map Operation.sql ∧
    (∀ op ∈ ops, op.kind = "report" →
      Event.logInfo ("Skipping report op: " ++ op.comment) ∈
        (SchemaCorrector.execLoop execOK total i ops).1) := by
  intro i ops
  induction ops generalizing i with
  | nil => intro _; exact ⟨rfl, rfl, by simp⟩
  | cons op rest ih =>
    intro hok
    obtain ⟨ih1, ih2, ih3⟩ := ih (i + 1)
      (fun u hu => hok u (List.mem_cons_of_mem op hu))
    unfold SchemaCorrector.execLoop
    by_cases hrep : op.kind = "report"
    · rw [if_pos hrep]
      refine ⟨ih1, ?_, ?_⟩
      · simp only [executedSqls, List.filterMap_cons]
        rw [List.filter_cons_of_neg (by simp [hrep])]
        exact ih2
      · intro u hu hk
        rcases List.mem_cons.mp hu with hu | hu
        · subst hu
          exact List.mem_cons_of_mem _ (List.mem_cons_self _ _)
        · exact List.mem_cons_of_mem _ (List.mem_cons_of_mem _
            (ih3 u hu hk))
    · rw [if_neg hrep, if_pos (hok op (List.mem_cons_self op rest) hrep)]
      refine ⟨ih1, ?_, ?_⟩
      · simp only [executedSqls, List.filterMap_cons]
        rw [List.filter_cons_of_pos (by simp [hrep])]
        simp only [List.map_cons]
        exact congrArg (op.sql :: ·) ih2
      · intro u hu hk
        rcases List.mem_cons.mp hu with hu | hu
        · exact absurd (hu ▸ hk) hrep
        · exact List.mem_cons_of_mem _ (List.mem_cons_of_mem _
            (ih3 u hu hk))

theorem execLoop_fail {execOK : String → Bool} {total : Nat}
    {bad : Operation} :
    ∀ (i : Nat) (pre post : List Operation),
    (∀ op ∈ pre, op.kind ≠ "report" → execOK op.sql = true) →
    bad.kind ≠ "report" → execOK bad.sql = false →
    (SchemaCorrector.execLoop execOK total i (pre ++ bad :: post)).2 =
      some bad.sql ∧
    executedSqls
      (SchemaCorrector.execLoop execOK total i (pre ++ bad :: post)).1 =
      (pre.filter (fun op => op.kind ≠ "report")).map Operation.sql := by
  intro i pre
  induction pre generalizing i with
  | nil =>
    intro post _ hbadk hbadf
    simp only [List.nil_append]
    unfold SchemaCorrector.execLoop
    rw [if_neg hbadk, if_neg (by simp [hbadf])]
    exact ⟨rfl, rfl⟩
  | cons op rest ih =>
    intro post hok hbadk hbadf
    obtain ⟨ih1, ih2⟩ := ih (i + 1) post
      (fun u hu => hok u (List.mem_cons_of_mem op hu)) hbadk hbadf
    simp only [List.cons_append]
    unfold SchemaCorrector.execLoop
    by_cases hrep : op.kind = "report"
    · rw [if_pos hrep]
      refine ⟨ih1, ?_⟩
      simp only [executedSqls, List.filterMap_cons]
      rw [List.filter_cons_of_neg (by simp [hrep])]
      exact ih2
    · rw [if_neg hrep, if_pos (hok op (List.mem_cons_self op rest) hrep)]
      refine ⟨ih1, ?_⟩
      simp only [executedSqls, List.filterMap_cons]
      rw [List.filter_cons_of_pos (by simp [hrep])]
      simp only [List.map_cons]
      exact congrArg (op.sql :: ·) ih2

theorem execStatements_no_db_but_exec {execOK : String → Bool} :
    ∀ {sqls : List String} {e : Event},
    e ∈ (SchemaCorrector.execStatements execOK sqls).1 →
    ∃ s, e = Event.executed s := by
  intro sqls
  induction sqls with
  | nil => intro e he; simp [SchemaCorrector.execStatements] at he
  | cons s rest ih =>
    intro e he
    unfold SchemaCorrector.execStatements at he
    by_cases hok : execOK s
    · rw [if_pos hok] at he
      rcases List.mem_cons.mp he with he | he
      · exact ⟨s, he⟩
      · exact ih he
    · rw [if_neg hok] at he
      simp at he

theorem execLoop_event_shapes {execOK : String → Bool} {total : Nat} :
    ∀ {i : Nat} {ops : List Operation} {e : Event},
    e ∈ (SchemaCorrector.execLoop execOK total i ops).1 →
    (∃ s, e = Event.logInfo s) ∨ (∃ s, e = Event.executed s) := by
  intro i ops
  induction ops generalizing i with
  | nil => intro e he; simp [SchemaCorrector.execLoop] at he
  | cons op rest ih =>
    intro e he
    unfold SchemaCorrector.execLoop at he
    by_cases hrep : op.kind = "report"
    · rw [if_pos hrep] at he
      rcases List.mem_cons.mp he with he | he
      · exact Or.inl ⟨_, he⟩
      · rcases List.mem_cons.mp he with he | he
        · exact Or.inl ⟨_, he⟩
        · exact ih he
    · rw [if_neg hrep] at he
      by_cases hok : execOK op.sql
      · rw [if_pos hok] at he
        rcases List.mem_cons.mp he with he | he
        · exact Or.inl ⟨_, he⟩
        · rcases List.mem_cons.mp he with he | he
          · exact Or.inr ⟨_, he⟩
          · exact ih he
      · rw [if_neg hok] at he
        rcases List.mem_cons.mp he with he | he
        · exact Or.inl ⟨_, he⟩
        · simp at he

/-- C6: executing a plan (not dry-run) with every non-report statement
succeeding never executes a report Operation: the SQL statements sent to
the target are exactly the session-timeout statements followed by the
non-report Operations' SQL in list order, each report is logged as
skipped, and the run completes without raising. -/
theorem C6_apply_skips_reports (c : SchemaCorrector) (ops : List Operation)
    (execOK : String → Bool)
    (hok : ∀ op ∈ ops, op.kind ≠ "report" → execOK op.sql = true)
    (htok : ∀ s ∈ c.applyTimeoutsSQL, execOK s = true) :
    (c.apply ops false execOK).2 = false ∧
    executedSqls (c.apply ops false execOK).1 =
      c.applyTimeoutsSQL ++
        (ops.filter (fun op => op.kind ≠ "report")).map Operation.sql ∧
    ∀ op ∈ ops, op.kind = "report" →
      Event.logInfo ("Skipping report op: " ++ op.comment) ∈
        (c.apply ops false execOK).1 := by
  obtain ⟨ht2, ht1⟩ :=
    @execStatements_all_ok execOK c.applyTimeoutsSQL htok
  obtain ⟨hr2, hr1, hskip⟩ :=
    @execLoop_all_ok execOK ops.length 1 ops hok
  have happ : c.apply ops false execOK =
      ((Event.logInfo ("Apply called. dry_run=" ++ toString false ++
          ", ops=" ++ toString ops.length) ::
        Event.began ::
        (SchemaCorrector.execStatements execOK c.applyTimeoutsSQL).1 ++
        (SchemaCorrector.execLoop execOK ops.length 1 ops).1 ++
        [Event.committed, Event.logInfo "Apply finished successfully."]),
        false) := by
    unfold SchemaCorrector.apply
    rw [if_neg (by simp)]
    simp only [ht2, hr2]
  rw [happ]
  refine ⟨rfl, ?_, ?_⟩
  · rw [executedSqls_append, executedSqls_append]
    have h1 : executedSqls (Event.logInfo ("Apply called. dry_run=" ++
        toString false ++ ", ops=" ++ toString ops.length) ::
        Event.began ::
        (SchemaCorrector.execStatements execOK c.applyTimeoutsSQL).1) =
        c.applyTimeoutsSQL := by
      simp only [executedSqls, List.filterMap_cons]
      rw [ht1]
      exact executedSqls_map_executed c.applyTimeoutsSQL
    rw [h1, hr1]
    have h3 : executedSqls [Event.committed,
        Event.logInfo "Apply finished successfully."] = [] := rfl
    rw [h3, List.append_nil]
  · intro op hop hk
    apply List.mem_append_left
    apply List.mem_append_right
    exact hskip op hop hk

/-- Witness for C6: a plan with a report and two DDL statements, every
statement succeeding. -/
theorem C6_witness :
    (∀ op ∈ opsApply, op.kind ≠ "report" →
      (fun _ => true) op.sql = true) ∧
    (corrApply.apply opsApply false (fun _ => true)).2 = false ∧
    executedSqls (corrApply.apply opsApply false (fun _ => true)).1 =
      ["CREATE TABLE \"t\" (\"id\" INTEGER);",
        "ALTER TABLE \"t\" ADD COLUMN \"c\" INTEGER;"] := by
  have hok : ∀ op ∈ opsApply, op.kind ≠ "report" →
      (fun _ => true) op.sql = true := by
    intro op _ _
    rfl
  have htok : ∀ s ∈ corrApply.applyTimeoutsSQL,
      (fun _ => true) s = true := by
    intro s _
    rfl
  obtain ⟨h1, h2, _⟩ :=
    C6_apply_skips_reports corrApply opsApply (fun _ => true) hok htok
  refine ⟨hok, h1, ?_⟩
  rw [h2]
  decide

/-- C7: when executing a plan (not dry-run) some statement fails, the run
executes nothing after the failing statement, rolls the transaction back
(never commits), logs at error then critical severity, and re-raises. -/
theorem C7_apply_failure_rolls_back (c : SchemaCorrector)
    (pre post : List Operation) (bad : Operation) (execOK : String → Bool)
    (hpre : ∀ op ∈ pre, op.kind ≠ "report" → execOK op.sql = true)
    (hbadk : bad.kind ≠ "report") (hbadf : execOK bad.sql = false)
    (htok : ∀ s ∈ c.applyTimeoutsSQL, execOK s = true) :
    (c.apply (pre ++ bad :: post) false execOK).2 = true ∧
    executedSqls (c.apply (pre ++ bad :: post) false execOK).1 =
      c.applyTimeoutsSQL ++
        (pre.filter (fun op => op.kind ≠ "report")).map Operation.sql ∧
    (∃ evs, (c.apply (pre ++ bad :: post) false execOK).1 =
      evs ++ [Event.rolledBack,
        Event.logError ("Apply failed: " ++ bad.sql),
        Event.logCritical "Schema correction aborted due to error."]) ∧
    Event.committed ∉ (c.apply (pre ++ bad :: post) false execOK).1 := by
  obtain ⟨ht2, ht1⟩ :=
    @execStatements_all_ok execOK c.applyTimeoutsSQL htok
  obtain ⟨hr2, hr1⟩ :=
    @execLoop_fail execOK (pre ++ bad :: post).length bad 1 pre post
      hpre hbadk hbadf
  have happ : c.apply (pre ++ bad :: post) false execOK =
      ((Event.logInfo ("Apply called. dry_run=" ++ toString false ++
          ", ops=" ++ toString (pre ++ bad :: post).length) ::
        Event.began ::
        (SchemaCorrector.execStatements execOK c.applyTimeoutsSQL).1 ++
        (SchemaCorrector.execLoop execOK (pre ++ bad :: post).length 1
          (pre ++ bad :: post)).1 ++
        [Event.rolledBack,
          Event.logError ("Apply failed: " ++ bad.sql),
          Event.logCritical "Schema correction aborted due to error."]),
        true) := by
    unfold SchemaCorrector.apply
    rw [if_neg (by simp)]
    simp only [ht2, hr2]
  rw [happ]
  refine ⟨rfl, ?_, ?_, ?_⟩
  · rw [executedSqls_append, executedSqls_append]
    have h1 : executedSqls (Event.logInfo ("Apply called. dry_run=" ++
        toString false ++ ", ops=" ++
        toString (pre ++ bad :: post).length) ::
        Event.began ::
        (SchemaCorrector.execStatements execOK c.applyTimeoutsSQL).1) =
        c.applyTimeoutsSQL := by
      simp only [executedSqls, List.filterMap_cons]
      rw [ht1]
      exact executedSqls_map_executed c.applyTimeoutsSQL
    rw [h1, hr1]
    have h3 : executedSqls [Event.rolledBack,
        Event.logError ("Apply failed: " ++ bad.sql),
        Event.logCritical "Schema correction aborted due to error."] =
        [] := rfl
    rw [h3, List.append_nil]
  · exact ⟨_, rfl⟩
  · intro hc
    rcases List.mem_append.mp hc with hc | hc
    · rcases List.mem_append.mp hc with hc | hc
      · rcases List.mem_cons.mp hc with hc | hc
        · simp at hc
        · rcases List.mem_cons.mp hc with hc | hc
          · simp at hc
          · obtain ⟨s, hs⟩ := execStatements_no_db_but_exec hc
            exact absurd hs (by simp)
      · rcases execLoop_event_shapes hc with ⟨s, hs⟩ | ⟨s, hs⟩
        · exact absurd hs (by simp)
        · exact absurd hs (by simp)
    · rcases List.mem_cons.mp hc with hc | hc
      · simp at hc
      · rcases List.mem_cons.mp hc with hc | hc
        · simp at hc
        · rcases List.mem_cons.mp hc with hc | hc
          · simp at hc
          · simp at hc

/-- Witness for C7: the failing statement aborts the run after the
successful prefix, with rollback and no commit. -/
theorem C7_witness :
    (⟨"add_column", "BAD SQL", "Add column t.bad"⟩ : Operation).kind ≠
      "report" ∧
    (fun s => s ≠ "BAD SQL" : String → Bool) "BAD SQL" = false ∧
    (corrApply.apply
      (opsApply ++ (⟨"add_column", "BAD SQL", "Add column t.bad"⟩ :
        Operation) :: []) false (fun s => s ≠ "BAD SQL")).2 = true ∧
    Event.committed ∉ (corrApply.apply
      (opsApply ++ (⟨"add_column", "BAD SQL", "Add column t.bad"⟩ :
        Operation) :: []) false (fun s => s ≠ "BAD SQL")).1 := by
  have hpre : ∀ op ∈ opsApply, op.kind ≠ "report" →
      (fun s => s ≠ "BAD SQL" : String → Bool) op.sql = true := by
    decide
  have hbadk : (⟨"add_column", "BAD SQL", "Add column t.bad"⟩ :
      Operation).kind ≠ "report" := by decide
  have hbadf : (fun s => s ≠ "BAD SQL" : String → Bool) "BAD SQL" =
      false := by decide
  have htok : ∀ s ∈ corrApply.applyTimeoutsSQL,
      (fun s => s ≠ "BAD SQL" : String → Bool) s = true := by
    decide
  obtain ⟨h1, _, _, h4⟩ := C7_apply_failure_rolls_back corrApply opsApply
    [] ⟨"add_column", "BAD SQL", "Add column t.bad"⟩
    (fun s => s ≠ "BAD SQL") hpre hbadk hbadf htok
  exact ⟨hbadk, hbadf, h1, h4⟩

/-- C8: a dry-run `apply` only logs and prints every Operation (kind,
comment and SQL); it emits no engine event whatsoever — no connection, no
executed statement, no timeout setting, no commit or rollback — and never
raises, for every success oracle (i.e. independently of target state). -/
theorem C8_dry_run_prints_only (c : SchemaCorrector) (ops : List Operation)
    (execOK : String → Bool) :
    c.apply ops true execOK =
      ((Event.logInfo ("Apply called. dry_run=" ++ toString true ++
          ", ops=" ++ toString ops.length) ::
        ops.map (fun op => Event.printed (SchemaCorrector.dryRunPrint op)) ++
        [Event.logInfo "Dry-run finished. No changes applied."]),
        false) ∧
    (∀ op ∈ ops,
      Event.printed (SchemaCorrector.dryRunPrint op) ∈
        (c.apply ops true execOK).1) ∧
    (∀ e ∈ (c.apply ops true execOK).1, isDbEvent e = false) := by
  have happ : c.apply ops true execOK =
      ((Event.logInfo ("Apply called. dry_run=" ++ toString true ++
          ", ops=" ++ toString ops.length) ::
        ops.map (fun op => Event.printed (SchemaCorrector.dryRunPrint op)) ++
        [Event.logInfo "Dry-run finished. No changes applied."]),
        false) := rfl
  refine ⟨happ, ?_, ?_⟩
  · intro op hop
    rw [happ]
    exact List.mem_cons_of_mem _ (List.mem_append_left _
      (List.mem_map_of_mem _ hop))
  · intro e he
    rw [happ] at he
    rcases List.mem_cons.mp he with he | he
    · rw [he]
      rfl
    · rcases List.mem_append.mp he with he | he
      · obtain ⟨op, _, heq⟩ := List.mem_map.mp he
        rw [← heq]
        rfl
      · have : e = Event.logInfo "Dry-run finished. No changes applied." :=
          by simpa using he
        rw [this]
        rfl

/-- C9: a source FK lacking a (truthy) referred table, or with an empty
constrained- or referred-column list, produces no Operation: its builder
returns none and the FK planner's output is exactly what it would be
without that FK. -/
theorem C9_invalid_fk_silently_skipped (c : SchemaCorrector) (t : String)
    (fk : FKInfo) (pre post : List FKInfo)
    (tgt_fks : Option (List FKInfo))
    (h : truthyStr fk.referred_table = false ∨
      fk.constrained_columns = [] ∨ fk.referred_columns = []) :
    c.build_fk_operation t fk = none ∧
    c.plan_foreign_keys t (pre ++ fk :: post) tgt_fks =
      c.plan_foreign_keys t (pre ++ post) tgt_fks := by
  have hnone : c.build_fk_operation t fk = none := by
    unfold SchemaCorrector.build_fk_operation
    by_cases h1 : truthyStr fk.referred_table = false
    · rw [if_pos h1]
    · rw [if_neg h1]
      have h2 : fk.constrained_columns = [] ∨ fk.referred_columns = [] := by
        rcases h with h | h | h
        · exact absurd h h1
        · exact Or.inl h
        · exact Or.inr h
      rw [if_pos h2]
  refine ⟨hnone, ?_⟩
  unfold SchemaCorrector.plan_foreign_keys
  rw [List.filterMap_append, List.filterMap_append, List.filterMap_cons]
  have hstep : (if tgt_fks.isSome ∧ c.fk_signature fk ∈
      (tgt_fks.getD []).map c.fk_signature then none
    else c.build_fk_operation t fk) = (none : Option Operation) := by
    by_cases hc : tgt_fks.isSome ∧ c.fk_signature fk ∈
        (tgt_fks.getD []).map c.fk_signature
    · rw [if_pos hc]
    · rw [if_neg hc]
      exact hnone
  rw [hstep]

/-- Witness for C9: an FK record with no referred table contributes
nothing to the plan. -/
theorem C9_witness :
    truthyStr fkNoRef.referred_table = false ∧
    corrApply.build_fk_operation "t" fkNoRef = none ∧
    corrApply.plan_foreign_keys "t" ([fkGood] ++ fkNoRef :: [])
      none =
      corrApply.plan_foreign_keys "t" ([fkGood] ++ []) none := by
  have h : truthyStr fkNoRef.referred_table = false := by decide
  obtain ⟨h1, h2⟩ := C9_invalid_fk_silently_skipped corrApply "t" fkNoRef
    [fkGood] [] none (Or.inl h)
  exact ⟨h, h1, h2⟩

/-! ## Uniqueness of the planned index operations -/

theorem mem_plannedIndexNames {c : SchemaCorrector} {t nm : String} :
    nm ∈ SchemaCorrector.plannedIndexNames c t ↔
      ∃ op ∈ SchemaCorrector.refIndexOps c t,
        op.comment = "Create index " ++ nm := by
  unfold SchemaCorrector.plannedIndexNames
  constructor
  · intro h
    obtain ⟨op, hop, heq⟩ := List.mem_map.mp h
    have hopref : op ∈ SchemaCorrector.refIndexOps c t :=
      List.mem_of_mem_filter hop
    obtain ⟨idx, _, nm0, _, _, _, hopeq⟩ := mem_refIndexOps hopref
    refine ⟨op, hopref, ?_⟩
    rw [hopeq] at heq ⊢
    dsimp only at heq ⊢
    rw [removeprefixStr_append] at heq
    rw [heq]
  · rintro ⟨op, hop, hc⟩
    apply List.mem_map.mpr
    refine ⟨op, ?_, ?_⟩
    · apply List.mem_filter.mpr
      refine ⟨hop, ?_⟩
      obtain ⟨idx, _, nm0, _, _, _, hopeq⟩ := mem_refIndexOps hop
      rw [hopeq]
      simp [strStartsWith_append]
    · rw [hc, removeprefixStr_append]

theorem filterMap_index_comments_nodup
    (f : IndexInfo → Option Operation)
    (hf : ∀ idx op, f idx = some op → ∃ nm, idx.name = some nm ∧
      op.comment = "Create index " ++ nm) :
    ∀ (l : List IndexInfo), (l.filterMap IndexInfo.name).Nodup →
    ((l.filterMap f).map Operation.comment).Nodup := by
  intro l
  induction l with
  | nil => intro _; simp
  | cons idx rest ih =>
    intro hnd
    rw [List.filterMap_cons] at hnd ⊢
    cases hfi : f idx with
    | none =>
      apply ih
      cases hn : idx.name with
      | none => rw [hn] at hnd; exact hnd
      | some nm =>
        rw [hn] at hnd
        exact hnd.of_cons
    | some op =>
      obtain ⟨nm, hn, hcomment⟩ := hf idx op hfi
      rw [hn] at hnd
      rw [List.map_cons, List.nodup_cons]
      constructor
      · intro hc
        obtain ⟨op', hop', heq⟩ := List.mem_map.mp hc
        obtain ⟨idx', hidx', hfi'⟩ := List.mem_filterMap.mp hop'
        obtain ⟨nm', hn', hcomment'⟩ := hf idx' op' hfi'
        have hnmeq : nm' = nm := by
          apply string_append_right_cancel (a := "Create index ")
          rw [← hcomment, ← hcomment']
          exact heq
        have hmem : nm ∈ rest.filterMap IndexInfo.name := by
          rw [← hnmeq]
          exact List.mem_filterMap.mpr ⟨idx', hidx', hn'⟩
        exact (List.nodup_cons.mp hnd).1 hmem
      · exact ih (List.nodup_cons.mp hnd).2

theorem refIndexOps_fun_shape (c : SchemaCorrector) (t : String) :
    ∀ (idx : IndexInfo) (op : Operation),
      (match idx.name with
      | some nm =>
        if nm ≠ "" ∧ nm ∉ c.tgtIndexNames t then
          some (⟨"create_index", SchemaCorrector.createIndexSQL c t idx,
            "Create index " ++ nm⟩ : Operation)
        else none
      | none => none) = some op →
      ∃ nm, idx.name = some nm ∧ op.comment = "Create index " ++ nm := by
  intro idx op heq
  cases hn : idx.name with
  | none => rw [hn] at heq; simp at heq
  | some nm =>
    rw [hn] at heq
    dsimp only at heq
    by_cases hc : nm ≠ "" ∧ nm ∉ c.tgtIndexNames t
    · rw [if_pos hc] at heq
      simp only [Option.some.injEq] at heq
      exact ⟨nm, rfl, by rw [← heq]⟩
    · rw [if_neg hc] at heq
      simp at heq

theorem inspIndexOps_fun_shape (c : SchemaCorrector) (t : String) :
    ∀ (info : IndexInfo) (op : Operation),
      (match info.name with
      | some nm =>
        if nm ≠ "" ∧ info.column_names ≠ [] ∧
            nm ∉ c.tgtIndexNames t ∧
            nm ∉ SchemaCorrector.plannedIndexNames c t then
          some (⟨"create_index",
            SchemaCorrector.handIndexSQL c t nm info.column_names
              info.unique,
            "Create index " ++ nm⟩ : Operation)
        else none
      | none => none) = some op →
      ∃ nm, info.name = some nm ∧ op.comment = "Create index " ++ nm := by
  intro info op heq
  cases hn : info.name with
  | none => rw [hn] at heq; simp at heq
  | some nm =>
    rw [hn] at heq
    dsimp only at heq
    by_cases hc : nm ≠ "" ∧ info.column_names ≠ [] ∧
        nm ∉ c.tgtIndexNames t ∧
        nm ∉ SchemaCorrector.plannedIndexNames c t
    · rw [if_pos hc] at heq
      simp only [Option.some.injEq] at heq
      exact ⟨nm, rfl, by rw [← heq]⟩
    · rw [if_neg hc] at heq
      simp at heq

/-- C10: under unique introspected index names (and reflected indexes
carrying their columns), the per-table index planning pass emits at most
one create_index Operation per index name, never for a name already
present in the target, and only for a truthy-named source index with
columns — even when the same index is visible both through reflection and
through direct introspection. -/
theorem C10_index_plan_unique (c : SchemaCorrector) (t : String)
    (h1 : ((c.source.reflected_indexes t).filterMap IndexInfo.name).Nodup)
    (h2 : ((c.source.indexes t).filterMap IndexInfo.name).Nodup)
    (h3 : ∀ idx ∈ c.source.reflected_indexes t, idx.column_names ≠ []) :
    ((c.plan_add_missing_indexes t).map Operation.comment).Nodup ∧
    ∀ op ∈ c.plan_add_missing_indexes t,
      op.kind = "create_index" ∧
      ∃ nm, op.comment = "Create index " ++ nm ∧ nm ≠ "" ∧
        nm ∉ c.tgtIndexNames t ∧
        ∃ idx ∈ c.source.reflected_indexes t ++ c.source.indexes t,
          idx.name = some nm ∧ idx.column_names ≠ [] := by
  constructor
  · unfold SchemaCorrector.plan_add_missing_indexes
    rw [List.map_append, List.nodup_append]
    refine ⟨?_, ?_, ?_⟩
    · exact filterMap_index_comments_nodup _ (refIndexOps_fun_shape c t)
        (c.source.reflected_indexes t) h1
    · exact filterMap_index_comments_nodup _ (inspIndexOps_fun_shape c t)
        (c.source.indexes t) h2
    · intro x hx hx'
      obtain ⟨op, hop, heq⟩ := List.mem_map.mp hx
      obtain ⟨op', hop', heq'⟩ := List.mem_map.mp hx'
      obtain ⟨idx, _, nm, _, _, _, hopeq⟩ := mem_refIndexOps hop
      obtain ⟨info, _, nm', _, _, _, _, hnp', hopeq'⟩ :=
        mem_inspIndexOps hop'
      have hx1 : x = "Create index " ++ nm := by rw [← heq, hopeq]
      have hx2 : x = "Create index " ++ nm' := by rw [← heq', hopeq']
      have hnm : nm = nm' := by
        apply string_append_right_cancel (a := "Create index ")
        rw [← hx1, ← hx2]
      apply hnp'
      rw [← hnm]
      exact mem_plannedIndexNames.mpr ⟨op, hop, by rw [hopeq]⟩
  · intro op hop
    unfold SchemaCorrector.plan_add_missing_indexes at hop
    rcases List.mem_append.mp hop with h | h
    · obtain ⟨idx, hidx, nm, hn, hne, hnt, hopeq⟩ := mem_refIndexOps h
      exact ⟨by rw [hopeq], nm, by rw [hopeq], hne, hnt, idx,
        List.mem_append_left _ hidx, hn, h3 idx hidx⟩
    · obtain ⟨info, hinfo, nm, hn, hne, hcols, hnt, _, hopeq⟩ :=
        mem_inspIndexOps h
      exact ⟨by rw [hopeq], nm, by rw [hopeq], hne, hnt, info,
        List.mem_append_right _ hinfo, hn, hcols⟩

/-- Witness for C10: on the fixture `corrC10`, `ix_a` is visible through
both reflection and introspection yet planned once, `ix_old` (present in
the target) is never planned, and the plan comments are duplicate free. -/
theorem C10_witness :
    ((corrC10.source.reflected_indexes "t").filterMap
      IndexInfo.name).Nodup ∧
    ((corrC10.source.indexes "t").filterMap IndexInfo.name).Nodup ∧
    (∀ idx ∈ corrC10.source.reflected_indexes "t",
      idx.column_names ≠ []) ∧
    ((corrC10.plan_add_missing_indexes "t").map Operation.comment).Nodup ∧
    (corrC10.plan_add_missing_indexes "t").map Operation.comment =
      ["Create index ix_a", "Create index ix_b"] := by
  have h1 : ((corrC10.source.reflected_indexes "t").filterMap
      IndexInfo.name).Nodup := by decide
  have h2 : ((corrC10.source.indexes "t").filterMap
      IndexInfo.name).Nodup := by decide
  have h3 : ∀ idx ∈ corrC10.source.reflected_indexes "t",
      idx.column_names ≠ [] := by decide
  obtain ⟨hnd, _⟩ := C10_index_plan_unique corrC10 "t" h1 h2 h3
  exact ⟨h1, h2, h3, hnd, by decide⟩
